import Mathlib

set_option maxRecDepth 10000

/-!
Verification of the multilingual management tools (js_to_excel, excel_to_js,
json_to_excel, update_excel_to_json).  Text is modelled as lists of
characters; Python dictionaries are modelled as association lists in
insertion order (a Python `d[k] = v` keeps the position of an existing key
and appends a new key at the end).  Python regular-expression scans are
modelled by the deterministic scanning functions they perform on the ASCII
fragment of the character classes involved (`\w` is modelled as
`[A-Za-z0-9_]`, `\s` as the six ASCII whitespace characters).
-/

namespace MLT

/-- Text (Python `str`) is modelled as a list of characters. -/
abbrev Str := List Char

def lbrace : Char := '{'

def rbrace : Char := '}'

def squote : Char := Char.ofNat 39

def dquote : Char := Char.ofNat 34

/-- ASCII fragment of the Python regex class backslash-w. -/
def isWordChar (c : Char) : Bool := c.isAlphanum || c = '_'

/-- ASCII fragment of the Python regex class backslash-s / `str.strip`. -/
def pyIsSpace (c : Char) : Bool :=
  c = ' ' || c = '\t' || c = '\n' || c = '\r' || c = Char.ofNat 11 || c = Char.ofNat 12

/-- Python `str.strip()`. -/
def pyStrip (s : Str) : Str :=
  ((s.dropWhile pyIsSpace).reverse.dropWhile pyIsSpace).reverse

/-- First-match association-list lookup (Python `d[k]` / `d.get(k)` / `k in d`). -/
def alookup {α : Type} : List (Str × α) → Str → Option α
  | [], _ => none
  | (k, v) :: t, q => if k = q then some v else alookup t q

/-- Python `d[k] = v` on an (insertion-ordered) dictionary: replace in place,
or append at the end when the key is absent. -/
def upsert {α : Type} : List (Str × α) → Str → α → List (Str × α)
  | [], k, v => [(k, v)]
  | (k1, v1) :: t, k, v =>
    if k1 = k then (k1, v) :: t else (k1, v1) :: upsert t k v

/-- Python `d.pop(k)`'s removal effect: drop the (first) binding of `k`. -/
def eraseKey {α : Type} : List (Str × α) → Str → List (Str × α)
  | [], _ => []
  | (k1, v1) :: t, k => if k1 = k then t else (k1, v1) :: eraseKey t k

/-- Python `s.split(".")` (keeping empty segments). -/
def splitDot : Str → List Str
  | [] => [[]]
  | c :: t =>
    if c = '.' then [] :: splitDot t
    else
      match splitDot t with
      | h :: r => (c :: h) :: r
      | [] => [[c]]

/-- Python `s.replace(pat, repl)`: non-overlapping left-to-right
replacement (fuelled; `replaceAll` below supplies sufficient fuel). -/
def replaceAllF (pat repl : Str) : Nat → Str → Str
  | 0, s => s
  | _ + 1, [] => []
  | fuel + 1, c :: t =>
    if pat ≠ [] ∧ pat.isPrefixOf (c :: t) then
      repl ++ replaceAllF pat repl fuel ((c :: t).drop pat.length)
    else
      c :: replaceAllF pat repl fuel t

/-- Python `s.replace(pat, repl)`. -/
def replaceAll (pat repl : Str) (s : Str) : Str :=
  replaceAllF pat repl s.length s

theorem replaceAllF_fuel (pat repl : Str) :
    ∀ (f1 : Nat) (s : Str) (f2 : Nat), s.length ≤ f1 → s.length ≤ f2 →
      replaceAllF pat repl f1 s = replaceAllF pat repl f2 s := by
  intro f1
  induction f1 with
  | zero =>
    intro s f2 h1 _
    have : s = [] := List.eq_nil_of_length_eq_zero (Nat.le_zero.mp h1)
    subst this
    cases f2 <;> rfl
  | succ f ih =>
    intro s f2 h1 h2
    cases s with
    | nil => cases f2 <;> rfl
    | cons c t =>
      cases f2 with
      | zero => simp at h2
      | succ f2' =>
        simp only [replaceAllF]
        by_cases hp : pat ≠ [] ∧ pat.isPrefixOf (c :: t)
        · rw [if_pos hp, if_pos hp]
          have hlen : ((c :: t).drop pat.length).length ≤ f := by
            have hp1 : 0 < pat.length := List.length_pos.mpr hp.1
            simp only [List.length_drop, List.length_cons]
            simp only [List.length_cons] at h1
            omega
          have hlen2 : ((c :: t).drop pat.length).length ≤ f2' := by
            have hp1 : 0 < pat.length := List.length_pos.mpr hp.1
            simp only [List.length_drop, List.length_cons]
            simp only [List.length_cons] at h2
            omega
          rw [ih _ f2' hlen hlen2]
        · rw [if_neg hp, if_neg hp]
          simp only [List.length_cons] at h1 h2
          rw [ih t f2' (by omega) (by omega)]

theorem replaceAll_cons (pat repl : Str) (c : Char) (t : Str) :
    replaceAll pat repl (c :: t) =
      if pat ≠ [] ∧ pat.isPrefixOf (c :: t) then
        repl ++ replaceAll pat repl ((c :: t).drop pat.length)
      else
        c :: replaceAll pat repl t := by
  show replaceAllF pat repl (t.length + 1) (c :: t) = _
  simp only [replaceAllF]
  by_cases hp : pat ≠ [] ∧ pat.isPrefixOf (c :: t)
  · rw [if_pos hp, if_pos hp]
    have hp1 : 0 < pat.length := List.length_pos.mpr hp.1
    show _ = repl ++ replaceAllF pat repl ((c :: t).drop pat.length).length _
    rw [replaceAllF_fuel pat repl t.length _ ((c :: t).drop pat.length).length]
    · simp only [List.length_drop, List.length_cons]
      omega
    · exact Nat.le_refl _
  · rw [if_neg hp, if_neg hp]
    rfl

theorem length_dropWhile_le {α : Type} (p : α → Bool) (l : List α) :
    (l.dropWhile p).length ≤ l.length := by
  induction l with
  | nil => simp [List.dropWhile]
  | cons c t ih =>
    simp only [List.dropWhile]
    cases p c
    · simp
    · simp
      omega

/-- Python `re.sub(r"//.*?\n", "\n", s)`: each `//` up to (and including)
the next newline is replaced by a single newline; a final `//`-run without
a terminating newline is not matched and stays (fuelled; `stripComments`
below supplies sufficient fuel). -/
def stripCommentsF : Nat → Str → Str
  | 0, s => s
  | _ + 1, [] => []
  | fuel + 1, c :: t =>
    if c = '/' ∧ t.head? = some '/' then
      match t.dropWhile (· ≠ '\n') with
      | '\n' :: r => '\n' :: stripCommentsF fuel r
      | _ => c :: t
    else c :: stripCommentsF fuel t

/-- Python `re.sub(r"//.*?\n", "\n", s)`. -/
def stripComments (s : Str) : Str := stripCommentsF s.length s

/-- The final `;`-stripping of `parse_js_file` (after `str.strip`). -/
def stripSemi (s : Str) : Str :=
  if s.getLast? = some ';' then s.dropLast else s

/-! ## Nested JS values (`js_to_excel.py` / `excel_to_js.py`)

A parsed JS translation value is either a string or a nested object;
objects keep declaration order. -/

inductive JValue : Type where
  | str : Str → JValue
  | obj : List (Str × JValue) → JValue

/-- One flattened tuple of `flatten_dict`: (class, key, value, order). -/
structure FlatRow where
  group : Str
  key : Str
  val : JValue
  rank : Nat

/-- Innermost loop of `flatten_dict` (the `subsub` level): entries of a
second-level dict `sub_v`, enumerated from `j`, ranked
`idx*10000 + sub_idx*100 + subsub_idx`; `base` is `idx*10000 + sub_idx*100`. -/
def flattenSubsub (cls subk : Str) (base : Nat) : Nat → List (Str × JValue) → List FlatRow
  | _, [] => []
  | j, (k3, v3) :: t =>
    ⟨cls, subk ++ '.' :: k3, v3, base + j⟩ :: flattenSubsub cls subk base (j + 1) t

/-- Middle loop of `flatten_dict`: entries of a group dict, enumerated
from `j` at group index `idx`. -/
def flattenSub (cls : Str) (idx : Nat) : Nat → List (Str × JValue) → List FlatRow
  | _, [] => []
  | j, (k2, v2) :: t =>
    (match v2 with
     | .obj m => flattenSubsub cls k2 (idx * 10000 + j * 100) 0 m
     | .str s => [⟨cls, k2, .str s, idx * 10000 + j⟩]) ++ flattenSub cls idx (j + 1) t

/-- Outer loop of `flatten_dict` over the top-level dict when the
iteration order is the dict's own key order (the `__order__`-free case;
used through the bridge lemmas below). -/
def flattenTop (parent : Str) : Nat → List (Str × JValue) → List FlatRow
  | _, [] => []
  | i, (k, v) :: t =>
    (match v with
     | .obj m => flattenSub k i 0 m
     | .str s => [⟨parent, k, .str s, i⟩]) ++ flattenTop parent (i + 1) t

/-- The iteration override of `flatten_dict` line 105:
`order_keys = d.pop('__order__', list(d.keys()))`.  When `__order__` is
present its value is what `enumerate` iterates: a dict yields its keys in
order, a string yields its characters (each a one-character string). -/
def orderKeys (d : List (Str × JValue)) : List Str :=
  match alookup d "__order__".data with
  | none => d.map Prod.fst
  | some (.obj m) => m.map Prod.fst
  | some (.str s) => s.map fun c => [c]

/-- The outer loop of `flatten_dict` (lines 108-127): enumerate
`order_keys` (the index advances on every element), skip keys absent from
the (post-pop) dict (`if k not in d: continue`), and flatten `d[k]`. -/
def flattenTopKeys (parent : Str) (d : List (Str × JValue)) :
    Nat → List Str → List FlatRow
  | _, [] => []
  | i, k :: ks =>
    (match alookup d k with
     | none => []
     | some (.obj m) => flattenSub k i 0 m
     | some (.str s) => [⟨parent, k, .str s, i⟩]) ++
    flattenTopKeys parent d (i + 1) ks

/-- `flatten_dict` of `js_to_excel.py` (`parent_key` defaults to `""`):
pop `__order__` (its value, when present, dictates the iteration), then
flatten following `order_keys`. -/
def flatten_dict (d : List (Str × JValue)) (parent : Str := []) : List FlatRow :=
  flattenTopKeys parent (eraseKey d "__order__".data) 0 (orderKeys d)

theorem eraseKey_of_none {α : Type} :
    ∀ (d : List (Str × α)) (k : Str), alookup d k = none → eraseKey d k = d := by
  intro d
  induction d with
  | nil => intro k _; rfl
  | cons p t ih =>
    intro k h
    obtain ⟨k1, v1⟩ := p
    simp only [alookup] at h
    by_cases e : k1 = k
    · rw [if_pos e] at h; cases h
    · rw [if_neg e] at h
      simp only [eraseKey, if_neg e]
      rw [ih k h]

theorem flattenTopKeys_shadow (parent : Str) (k : Str) (v : JValue)
    (t : List (Str × JValue)) :
    ∀ (ks : List Str) (i : Nat), (∀ k2 ∈ ks, k2 ≠ k) →
      flattenTopKeys parent ((k, v) :: t) i ks = flattenTopKeys parent t i ks := by
  intro ks
  induction ks with
  | nil => intro i _; rfl
  | cons k2 ks2 ih =>
    intro i h
    simp only [flattenTopKeys, alookup]
    rw [if_neg (fun e => h k2 (List.mem_cons_self k2 ks2) e.symm)]
    rw [ih (i + 1) fun x hx => h x (List.mem_cons_of_mem k2 hx)]

theorem flattenTopKeys_graph (parent : Str) :
    ∀ (d : List (Str × JValue)) (i : Nat), (d.map Prod.fst).Nodup →
      flattenTopKeys parent d i (d.map Prod.fst) = flattenTop parent i d := by
  intro d
  induction d with
  | nil => intro i _; rfl
  | cons p t ih =>
    intro i hnd
    obtain ⟨k, v⟩ := p
    simp only [List.map_cons, List.nodup_cons] at hnd
    simp only [List.map_cons, flattenTopKeys, flattenTop]
    have ha : alookup ((k, v) :: t) k = some v := by
      simp [alookup]
    have hnk : ∀ k2 ∈ t.map Prod.fst, k2 ≠ k := by
      intro k2 hk2 he
      exact hnd.1 (he ▸ hk2)
    rw [ha, flattenTopKeys_shadow parent k v t (t.map Prod.fst) (i + 1) hnk,
      ih (i + 1) hnd.2]
    cases v <;> rfl

/-- On documents without a top-level `__order__` key and with distinct
top-level keys (every real Python dict has distinct keys), `flatten_dict`
iterates the dict in its own key order. -/
theorem flatten_dict_plain (d : List (Str × JValue))
    (ho : alookup d "__order__".data = none) (hnd : (d.map Prod.fst).Nodup) :
    flatten_dict d = flattenTop [] 0 d := by
  unfold flatten_dict orderKeys
  rw [ho, eraseKey_of_none d _ ho]
  exact flattenTopKeys_graph [] d 0 hnd

/-! ### Claim C1: orderRank of `flatten_dict` -/

/-- All entries of a dict hold object values. -/
def allObj : List (Str × JValue) → Bool
  | [] => true
  | (_, .obj _) :: t => allObj t
  | (_, .str _) :: _ => false

/-- Every scalar entry of the dict precedes every object entry. -/
def scalarsFirst : List (Str × JValue) → Bool
  | [] => true
  | (_, .str _) :: t => scalarsFirst t
  | (_, .obj _) :: t => allObj t

/-- A second-level object holds at most 100 entries. -/
def subSmall : JValue → Bool
  | .obj m => decide (m.length ≤ 100)
  | .str _ => true

/-- Well-formedness of one group dict for collision-free ranks. -/
def groupOk (m : List (Str × JValue)) : Bool :=
  decide (m.length ≤ 100) && scalarsFirst m && m.all (fun p => subSmall p.2)

/-- A top-level value is a mapping satisfying `groupOk`. -/
def groupVal : JValue → Bool
  | .obj m => groupOk m
  | .str _ => false

/-- Well-formedness of a whole document for collision-free ranks: every
top-level value is a mapping and every group is `groupOk`. -/
def docOk (d : List (Str × JValue)) : Bool :=
  d.all (fun p => groupVal p.2)

theorem flattenSubsub_spec (cls k2 : Str) (b : Nat) :
    ∀ (m : List (Str × JValue)) (j : Nat),
      ((flattenSubsub cls k2 b j m).Pairwise fun a c => a.rank < c.rank) ∧
      ∀ r ∈ flattenSubsub cls k2 b j m, b + j ≤ r.rank ∧ r.rank < b + j + m.length := by
  intro m
  induction m with
  | nil => intro j; simp [flattenSubsub]
  | cons p t ih =>
    intro j
    obtain ⟨k3, v3⟩ := p
    obtain ⟨ihp, ihb⟩ := ih (j + 1)
    simp only [flattenSubsub, List.pairwise_cons, List.mem_cons]
    refine ⟨⟨?_, ihp⟩, ?_⟩
    · intro r hr
      have h1 := (ihb r hr).1
      omega
    · rintro r (rfl | hr)
      · dsimp only [List.length_cons]
        omega
      · have := ihb r hr
        simp only [List.length_cons]
        omega

theorem flattenSub_allObj (cls : Str) (idx : Nat) :
    ∀ (m : List (Str × JValue)) (j : Nat), allObj m = true →
      (∀ p ∈ m, subSmall p.2 = true) → j + m.length ≤ 100 →
      ((flattenSub cls idx j m).Pairwise fun a c => a.rank < c.rank) ∧
      ∀ r ∈ flattenSub cls idx j m,
        idx * 10000 + j * 100 ≤ r.rank ∧ r.rank < idx * 10000 + 10000 := by
  intro m
  induction m with
  | nil => intro j _ _ _; simp [flattenSub]
  | cons p t ih =>
    intro j hobj hsmall hlen
    obtain ⟨k2, v2⟩ := p
    cases v2 with
    | str s => simp [allObj] at hobj
    | obj mm =>
      have hmm : mm.length ≤ 100 := by
        have hs1 := hsmall ⟨k2, JValue.obj mm⟩ (List.mem_cons_self ⟨k2, JValue.obj mm⟩ t)
        simpa [subSmall] using hs1
      have ht : allObj t = true := by simpa [allObj] using hobj
      have hts : ∀ p ∈ t, subSmall p.2 = true := fun p hp => hsmall p (by simp [hp])
      have htl : (j + 1) + t.length ≤ 100 := by
        simp only [List.length_cons] at hlen; omega
      obtain ⟨ihp, ihb⟩ := ih (j + 1) ht hts htl
      obtain ⟨ssp, ssb⟩ := flattenSubsub_spec cls k2 (idx * 10000 + j * 100) mm 0
      simp only [flattenSub, List.pairwise_append, List.mem_append]
      refine ⟨⟨ssp, ihp, ?_⟩, ?_⟩
      · intro a ha c hc
        have h1 := (ssb a ha).2
        have h2 := (ihb c hc).1
        omega
      · rintro r (hr | hr)
        · have h1 := ssb r hr
          have hj : j + 1 ≤ 100 := by
            simp only [List.length_cons] at hlen; omega
          constructor
          · omega
          · nlinarith [h1.2]
        · have := ihb r hr
          omega

theorem flattenSub_scalarsFirst (cls : Str) (idx : Nat) :
    ∀ (m : List (Str × JValue)) (j : Nat), scalarsFirst m = true →
      (∀ p ∈ m, subSmall p.2 = true) → j + m.length ≤ 100 →
      ((flattenSub cls idx j m).Pairwise fun a c => a.rank < c.rank) ∧
      ∀ r ∈ flattenSub cls idx j m,
        idx * 10000 + j ≤ r.rank ∧ r.rank < idx * 10000 + 10000 := by
  intro m
  induction m with
  | nil => intro j _ _ _; simp [flattenSub]
  | cons p t ih =>
    intro j hsf hsmall hlen
    obtain ⟨k2, v2⟩ := p
    cases v2 with
    | obj mm =>
      have hobj : allObj ((k2, JValue.obj mm) :: t) = true := by
        simpa [allObj, scalarsFirst] using hsf
      obtain ⟨hp, hb⟩ := flattenSub_allObj cls idx ((k2, .obj mm) :: t) j hobj hsmall hlen
      refine ⟨hp, fun r hr => ?_⟩
      have := hb r hr
      have : idx * 10000 + j * 100 ≤ r.rank := this.1
      have h2 := (hb r hr).2
      constructor
      · omega
      · exact h2
    | str s =>
      have ht : scalarsFirst t = true := by simpa [scalarsFirst] using hsf
      have hts : ∀ p ∈ t, subSmall p.2 = true := fun p hp => hsmall p (by simp [hp])
      have htl : (j + 1) + t.length ≤ 100 := by
        simp only [List.length_cons] at hlen; omega
      obtain ⟨ihp, ihb⟩ := ih (j + 1) ht hts htl
      simp only [flattenSub, List.singleton_append, List.pairwise_cons, List.mem_cons]
      refine ⟨⟨?_, ihp⟩, ?_⟩
      · intro r hr
        have h1 := (ihb r hr).1
        omega
      · rintro r (rfl | hr)
        · simp only [List.length_cons] at hlen
          dsimp only
          omega
        · have := ihb r hr
          omega

theorem flattenTop_spec (parent : Str) :
    ∀ (d : List (Str × JValue)) (i : Nat), docOk d = true →
      ((flattenTop parent i d).Pairwise fun a c => a.rank < c.rank) ∧
      ∀ r ∈ flattenTop parent i d, i * 10000 ≤ r.rank ∧ r.rank < (i + d.length) * 10000 := by
  intro d
  induction d with
  | nil => intro i _; simp [flattenTop]
  | cons p t ih =>
    intro i hok
    obtain ⟨k, v⟩ := p
    simp only [docOk, List.all_cons, Bool.and_eq_true] at hok
    cases v with
    | str s => exact absurd hok.1 (by simp [groupVal])
    | obj m =>
      have hg : groupOk m = true := by simpa [groupVal] using hok.1
      have ht : docOk t = true := by
        simp only [docOk]
        exact hok.2
      simp only [groupOk, Bool.and_eq_true, decide_eq_true_eq, List.all_eq_true] at hg
      obtain ⟨⟨hlen, hsf⟩, hsmall⟩ := hg
      obtain ⟨gp, gb⟩ :=
        flattenSub_scalarsFirst k i m 0 hsf (fun p hp => hsmall p hp) (by omega)
      obtain ⟨ihp, ihb⟩ := ih (i + 1) ht
      simp only [flattenTop, List.pairwise_append, List.mem_append]
      refine ⟨⟨gp, ihp, ?_⟩, ?_⟩
      · intro a ha c hc
        have h1 := (gb a ha).2
        have h2 := (ihb c hc).1
        omega
      · rintro r (hr | hr)
        · have := gb r hr
          simp only [List.length_cons]
          constructor
          · omega
          · nlinarith [this.2]
        · have := ihb r hr
          simp only [List.length_cons]
          constructor
          · omega
          · nlinarith [this.2]

/-- C1 (amended): for documents without a top-level `__order__` key (a
present `__order__` overrides and can drop groups), with distinct
top-level keys, whose top-level values are all mappings, in which each
group lists its scalar entries before its mapping entries, has at most
100 entries, and each second-level mapping has at most 100 entries, the
orderRanks produced by `flatten_dict` are strictly increasing in
declaration order; hence sorting the flattened tuples by orderRank
reproduces the declaration order exactly and no two tuples share a rank. -/
theorem claim1_flatten_rank_strict (d : List (Str × JValue))
    (ho : alookup d "__order__".data = none) (hnd : (d.map Prod.fst).Nodup)
    (h : docOk d = true) :
    ((flatten_dict d).Pairwise fun a c => a.rank < c.rank) ∧
    List.insertionSort (fun a c => a.rank ≤ c.rank) (flatten_dict d) = flatten_dict d := by
  rw [flatten_dict_plain d ho hnd]
  obtain ⟨hp, _⟩ := flattenTop_spec [] d 0 h
  refine ⟨hp, ?_⟩
  have hs : List.Sorted (fun a c : FlatRow => a.rank ≤ c.rank) (flattenTop [] 0 d) :=
    hp.imp (fun hlt => Nat.le_of_lt hlt)
  exact hs.insertionSort_eq

/-- Concrete document for the C1 counterexample:
`g: { a: { p: "1", q: "2" }, b: "3" }`. -/
def docC1cex : List (Str × JValue) :=
  [("g".data, .obj
    [("a".data, .obj [("p".data, .str "1".data), ("q".data, .str "2".data)]),
     ("b".data, .str "3".data)])]

/-- C1 counterexample: `flatten_dict` assigns the ranks `[0, 1, 1]` to this
three-tuple document, so two tuples share the same orderRank and sorting by
orderRank cannot reproduce the declaration order. -/
theorem claim1_counterexample :
    (flatten_dict docC1cex).map FlatRow.rank = [0, 1, 1] ∧
    ¬ ((flatten_dict docC1cex).map FlatRow.rank).Nodup := by
  constructor
  · rfl
  · decide

/-- Witness for the amended C1 theorem at a concrete document. -/
def docC1wit : List (Str × JValue) :=
  [("text".data, .obj
    [("title".data, .str "Hello".data),
     ("menu".data, .obj [("a".data, .str "x".data), ("b".data, .str "y".data)])]),
   ("tip".data, .obj [("ok".data, .str "OK".data)])]

theorem claim1_witness :
    (alookup docC1wit "__order__".data = none ∧ (docC1wit.map Prod.fst).Nodup ∧
      docOk docC1wit = true) ∧
    (((flatten_dict docC1wit).Pairwise fun a c => a.rank < c.rank) ∧
      List.insertionSort (fun a c => a.rank ≤ c.rank) (flatten_dict docC1wit) =
        flatten_dict docC1wit) :=
  ⟨⟨rfl, by decide, by decide⟩,
    claim1_flatten_rank_strict docC1wit rfl (by decide) (by decide)⟩

/-! ## `parse_js_file` (js_to_excel.py, lines 16-97)

The regex scans are modelled by the deterministic character scans the
patterns perform (see the module comment). -/

/-- Anchored match of `(\w+)\s*:` at the start of `s`: a greedy non-empty
word run, greedy whitespace, then `:`; yields the word and the text after
the colon (`match.end()`).  Backtracking cannot produce any other match
here because a shorter word run leaves a word character where `\s*:`
would have to match. -/
def matchWordColonAt (s : Str) : Option (Str × Str) :=
  let w := s.takeWhile isWordChar
  if w = [] then none
  else
    match (s.dropWhile isWordChar).dropWhile pyIsSpace with
    | c :: rest => if c = ':' then some (w, rest) else none
    | [] => none

/-- `re.search(r"(\w+)\s*:", s)`: the leftmost anchored match. -/
def searchWordColon : Str → Option (Str × Str)
  | [] => none
  | c :: t =>
    match matchWordColonAt (c :: t) with
    | some kv => some kv
    | none => searchWordColon t

theorem matchWordColonAt_length {s k rest : Str}
    (h : matchWordColonAt s = some (k, rest)) : rest.length < s.length := by
  unfold matchWordColonAt at h
  by_cases hw : s.takeWhile isWordChar = []
  · simp [hw] at h
  · simp only [hw, if_false] at h
    cases e : (s.dropWhile isWordChar).dropWhile pyIsSpace with
    | nil => rw [e] at h; cases h
    | cons c r =>
      rw [e] at h
      by_cases hc : c = ':'
      · simp only [hc, if_true, Option.some.injEq, Prod.mk.injEq] at h
        have h1 : (c :: r).length ≤ (s.dropWhile isWordChar).length := by
          rw [← e]; exact length_dropWhile_le _ _
        have h2 : (s.dropWhile isWordChar).length ≤ s.length :=
          length_dropWhile_le _ _
        have h3 : rest = r := h.2.symm
        subst h3
        simp only [List.length_cons] at h1
        omega
      · simp [hc] at h

theorem searchWordColon_length {s k rest : Str}
    (h : searchWordColon s = some (k, rest)) : rest.length < s.length := by
  induction s with
  | nil => cases h
  | cons c t ih =>
    simp only [searchWordColon] at h
    cases e : matchWordColonAt (c :: t) with
    | some kv =>
      rw [e] at h
      cases h
      exact matchWordColonAt_length e
    | none =>
      rw [e] at h
      have := ih h
      simp only [List.length_cons]
      omega

/-- The brace-balance scan of `parse_js_file`: inside a group at depth
`n`, split the text at the matching closing brace (text before it, text
after it); `none` when the text runs out first (`bracket_count != 0`). -/
def findClose (n : Nat) : Str → Option (Str × Str)
  | [] => none
  | c :: t =>
    if c = lbrace then
      (findClose (n + 1) t).map fun p => (c :: p.1, p.2)
    else if c = rbrace then
      if n = 1 then some ([], t)
      else (findClose (n - 1) t).map fun p => (c :: p.1, p.2)
    else
      (findClose n t).map fun p => (c :: p.1, p.2)

theorem findClose_length :
    ∀ (s : Str) (n : Nat) (a rest : Str), findClose n s = some (a, rest) →
      rest.length < s.length := by
  intro s
  induction s with
  | nil => intro n a rest h; cases h
  | cons c t ih =>
    intro n a rest h
    simp only [findClose] at h
    by_cases h1 : c = lbrace
    · simp only [h1, if_true] at h
      cases e : findClose (n + 1) t with
      | none => rw [e] at h; cases h
      | some p =>
        rw [e] at h
        cases h
        have := ih (n + 1) p.1 p.2 e
        simp only [List.length_cons]
        omega
    · simp only [h1, if_false] at h
      by_cases h2 : c = rbrace
      · simp only [h2, if_true] at h
        by_cases h3 : n = 1
        · simp only [h3, if_true, Option.some.injEq, Prod.mk.injEq] at h
          have : rest = t := h.2.symm
          subst this
          simp
        · simp only [h3, if_false] at h
          cases e : findClose (n - 1) t with
          | none => rw [e] at h; cases h
          | some p =>
            rw [e] at h
            cases h
            have := ih (n - 1) p.1 p.2 e
            simp only [List.length_cons]
            omega
      · simp only [h2, if_false] at h
        cases e : findClose n t with
        | none => rw [e] at h; cases h
        | some p =>
          rw [e] at h
          cases h
          have := ih n p.1 p.2 e
          simp only [List.length_cons]
          omega

/-- Whether a character is one of the two quote characters of the item
pattern `['\"]` / `[^'\"]`. -/
def isQuote (c : Char) : Bool := c = squote || c = dquote

/-- After the lazy key group of the item pattern
`([^,{}]+?)\s*:\s*['\"]([^'\"]*)['\"],?`: greedy `\s*`, `:`, greedy `\s*`,
an opening quote, the greedy run of non-quote characters, a closing
quote, and an optional comma; yields the captured value and the text
after the match.  Each step is deterministic: backtracking a greedy
`\s*` only exposes a whitespace character where `:` (or a quote) must
match, and the non-quote run ends exactly at the first quote. -/
def itemTail (s : Str) : Option (Str × Str) :=
  match s.dropWhile pyIsSpace with
  | [] => none
  | c :: r2 =>
    if c = ':' then
      match r2.dropWhile pyIsSpace with
      | [] => none
      | q :: r4 =>
        if isQuote q then
          let v := r4.takeWhile fun c => !(isQuote c)
          match r4.dropWhile (fun c => !(isQuote c)) with
          | [] => none
          | _ :: r6 =>
            match r6 with
            | c7 :: r7 => if c7 = ',' then some (v, r7) else some (v, r6)
            | [] => some (v, [])
        else none
    else none

theorem itemTail_length {s v rest : Str} (h : itemTail s = some (v, rest)) :
    rest.length < s.length := by
  unfold itemTail at h
  cases e1 : s.dropWhile pyIsSpace with
  | nil => rw [e1] at h; cases h
  | cons c r2 =>
    rw [e1] at h
    by_cases hc : c = ':'
    · simp only [hc, if_true] at h
      cases e2 : r2.dropWhile pyIsSpace with
      | nil => rw [e2] at h; cases h
      | cons q r4 =>
        rw [e2] at h
        by_cases hq : isQuote q = true
        · simp only [hq, if_true] at h
          cases e3 : r4.dropWhile (fun c => !(isQuote c)) with
          | nil => rw [e3] at h; cases h
          | cons c6 r6 =>
            rw [e3] at h
            have l1 : (c :: r2).length ≤ s.length := by
              rw [← e1]; exact length_dropWhile_le _ _
            have l2 : (q :: r4).length ≤ r2.length := by
              rw [← e2]; exact length_dropWhile_le _ _
            have l3 : (c6 :: r6).length ≤ r4.length := by
              rw [← e3]; exact length_dropWhile_le _ _
            simp only [List.length_cons] at l1 l2 l3
            cases e4 : r6 with
            | nil =>
              rw [e4] at h
              simp only [Option.some.injEq, Prod.mk.injEq] at h
              have : rest = [] := h.2.symm
              subst this
              simp only [List.length_nil]
              omega
            | cons c7 r7 =>
              rw [e4] at h
              subst e4
              by_cases h7 : c7 = ','
              · simp only [h7, if_true, Option.some.injEq, Prod.mk.injEq] at h
                have : rest = r7 := h.2.symm
                subst this
                simp only [List.length_cons] at l3
                omega
              · simp only [h7, if_false, Option.some.injEq, Prod.mk.injEq] at h
                have : rest = c7 :: r7 := h.2.symm
                subst this
                simp only [List.length_cons] at l3 ⊢
                omega
        · simp [hq] at h
    · simp [hc] at h

/-- The lazy key group `([^,{}]+?)` of the item pattern: try the shortest
key first, extending one character at a time through the run of
characters outside `,{}`; `acc` is the key prefix consumed so far. -/
def itemKeyLoop (acc : Str) : Str → Option (Str × Str × Str)
  | [] => none
  | c :: t =>
    if c = ',' ∨ c = lbrace ∨ c = rbrace then none
    else
      match itemTail t with
      | some (v, rest) => some (acc ++ [c], v, rest)
      | none => itemKeyLoop (acc ++ [c]) t

theorem itemKeyLoop_length :
    ∀ (s : Str) (acc k v rest : Str), itemKeyLoop acc s = some (k, v, rest) →
      rest.length < s.length := by
  intro s
  induction s with
  | nil => intro acc k v rest h; cases h
  | cons c t ih =>
    intro acc k v rest h
    simp only [itemKeyLoop] at h
    by_cases h1 : c = ',' ∨ c = lbrace ∨ c = rbrace
    · simp [h1] at h
    · simp only [h1, if_false] at h
      cases e : itemTail t with
      | some p =>
        rw [e] at h
        cases h
        have := itemTail_length e
        simp only [List.length_cons]
        omega
      | none =>
        rw [e] at h
        simp only [] at h
        have := ih (acc ++ [c]) _ _ _ h
        simp only [List.length_cons]
        omega

/-- `re.finditer` of the item pattern over a group body: an anchored
match attempt at each position; on success continue after the match,
otherwise advance one character.  The raw key is stripped
(`item.group(1).strip()` happens on the captured group; leading
whitespace swallowed by the lazy group is removed there).  (Fuelled;
`findItems` below supplies sufficient fuel.) -/
def findItemsF : Nat → Str → List (Str × Str)
  | 0, _ => []
  | _ + 1, [] => []
  | fuel + 1, c :: t =>
    match itemKeyLoop [] (c :: t) with
    | some p => (pyStrip p.1, p.2.1) :: findItemsF fuel p.2.2
    | none => findItemsF fuel t

/-- `re.finditer` of the item pattern over a group body. -/
def findItems (s : Str) : List (Str × Str) := findItemsF s.length s

theorem findItemsF_fuel :
    ∀ (f1 : Nat) (s : Str) (f2 : Nat), s.length ≤ f1 → s.length ≤ f2 →
      findItemsF f1 s = findItemsF f2 s := by
  intro f1
  induction f1 with
  | zero =>
    intro s f2 h1 _
    have : s = [] := List.eq_nil_of_length_eq_zero (Nat.le_zero.mp h1)
    subst this
    cases f2 <;> rfl
  | succ f ih =>
    intro s f2 h1 h2
    cases s with
    | nil => cases f2 <;> rfl
    | cons c t =>
      cases f2 with
      | zero => simp at h2
      | succ f2' =>
        simp only [findItemsF]
        simp only [List.length_cons] at h1 h2
        cases e : itemKeyLoop [] (c :: t) with
        | some p =>
          have hlt := itemKeyLoop_length (c :: t) [] p.1 p.2.1 p.2.2 (by rw [e])
          simp only [List.length_cons] at hlt
          dsimp only
          rw [ih p.2.2 f2' (by omega) (by omega)]
        | none =>
          dsimp only
          rw [ih t f2' (by omega) (by omega)]

theorem findItems_cons (c : Char) (t : Str) :
    findItems (c :: t) =
      match itemKeyLoop [] (c :: t) with
      | some p => (pyStrip p.1, p.2.1) :: findItems p.2.2
      | none => findItems t := by
  show findItemsF (t.length + 1) (c :: t) = _
  simp only [findItemsF]
  cases e : itemKeyLoop [] (c :: t) with
  | some p =>
    have hlt := itemKeyLoop_length (c :: t) [] p.1 p.2.1 p.2.2 (by rw [e])
    simp only [List.length_cons] at hlt
    dsimp only
    rw [findItemsF_fuel t.length p.2.2 p.2.2.length (by omega) (Nat.le_refl _)]
    rfl
  | none =>
    rfl

/-- Per-group entry extraction of `parse_js_file` (strip the class body,
then build the class dict in match order). -/
def parseClassContent (s : Str) : List (Str × Str) :=
  (findItems (pyStrip s)).foldl (fun d p => upsert d p.1 p.2) []

/-- The top-level scanning loop of `parse_js_file`: search for
`(\w+)\s*:`, skip forward to the next `{`, brace-balance to the matching
`}`, parse the class body, and continue after it; a missing `{` ends the
loop, an unmatched brace raises.  (Fuelled; `parseLoop` below supplies
sufficient fuel.) -/
def parseLoopF : Nat → Str → List (Str × List (Str × Str)) →
    Except Str (List (Str × List (Str × Str)))
  | 0, _, res => .ok res
  | fuel + 1, s, res =>
    match searchWordColon s with
    | none => .ok res
    | some kr =>
      match kr.2.dropWhile (· ≠ lbrace) with
      | [] => .ok res
      | _ :: body =>
        match findClose 1 body with
        | none => .error ("Cannot find closing bracket for class ".data ++ kr.1)
        | some p => parseLoopF fuel p.2 (upsert res kr.1 (parseClassContent p.1))

/-- The top-level scanning loop of `parse_js_file`. -/
def parseLoop (s : Str) (res : List (Str × List (Str × Str))) :
    Except Str (List (Str × List (Str × Str))) :=
  parseLoopF s.length s res

theorem parseLoopF_fuel :
    ∀ (f1 : Nat) (s : Str) (res : List (Str × List (Str × Str))) (f2 : Nat),
      s.length ≤ f1 → s.length ≤ f2 → parseLoopF f1 s res = parseLoopF f2 s res := by
  intro f1
  induction f1 with
  | zero =>
    intro s res f2 h1 _
    have : s = [] := List.eq_nil_of_length_eq_zero (Nat.le_zero.mp h1)
    subst this
    cases f2 with
    | zero => rfl
    | succ f2' =>
      simp only [parseLoopF]
      cases e : searchWordColon [] with
      | none => rfl
      | some kr => cases e
  | succ f ih =>
    intro s res f2 h1 h2
    cases f2 with
    | zero =>
      have : s = [] := List.eq_nil_of_length_eq_zero (Nat.le_zero.mp h2)
      subst this
      simp only [parseLoopF]
      cases e : searchWordColon [] with
      | none => rfl
      | some kr => cases e
    | succ f2' =>
      simp only [parseLoopF]
      cases e : searchWordColon s with
      | none => rfl
      | some kr =>
        dsimp only
        have hs := searchWordColon_length e
        cases e2 : kr.2.dropWhile (· ≠ lbrace) with
        | nil => rfl
        | cons b body =>
          dsimp only
          cases e3 : findClose 1 body with
          | none => rfl
          | some p =>
            dsimp only
            have hb : (kr.2.dropWhile (· ≠ lbrace)).length ≤ kr.2.length :=
              length_dropWhile_le _ _
            rw [e2] at hb
            have hf := findClose_length body 1 p.1 p.2 (by rw [e3])
            simp only [List.length_cons] at hb
            exact ih p.2 _ f2' (by omega) (by omega)

theorem parseLoop_eq (s : Str) (res : List (Str × List (Str × Str))) :
    parseLoop s res =
      match searchWordColon s with
      | none => .ok res
      | some kr =>
        match kr.2.dropWhile (· ≠ lbrace) with
        | [] => .ok res
        | _ :: body =>
          match findClose 1 body with
          | none => .error ("Cannot find closing bracket for class ".data ++ kr.1)
          | some p => parseLoop p.2 (upsert res kr.1 (parseClassContent p.1)) := by
  cases s with
  | nil =>
    show parseLoopF 0 [] res = _
    simp only [parseLoopF]
    cases e : searchWordColon [] with
    | none => rfl
    | some kr => cases e
  | cons c t =>
    show parseLoopF (t.length + 1) (c :: t) res = _
    simp only [parseLoopF]
    cases e : searchWordColon (c :: t) with
    | none => rfl
    | some kr =>
      dsimp only
      have hs := searchWordColon_length e
      simp only [List.length_cons] at hs
      cases e2 : kr.2.dropWhile (· ≠ lbrace) with
      | nil => rfl
      | cons b body =>
        dsimp only
        cases e3 : findClose 1 body with
        | none => rfl
        | some p =>
          dsimp only
          have hb : (kr.2.dropWhile (· ≠ lbrace)).length ≤ kr.2.length :=
            length_dropWhile_le _ _
          rw [e2] at hb
          have hf := findClose_length body 1 p.1 p.2 (by rw [e3])
          simp only [List.length_cons] at hb
          show parseLoopF t.length p.2 _ = parseLoopF p.2.length p.2 _
          exact parseLoopF_fuel t.length p.2 _ p.2.length (by omega) (Nat.le_refl _)

/-- `parse_js_file`: remove `export default`, strip single-line comments,
strip outer whitespace and one trailing `;`, then run the scanning loop.
A raised `ValueError` is modelled as `.error`. -/
def parse_js_file (content : Str) : Except Str (List (Str × List (Str × Str))) :=
  parseLoop (stripSemi (pyStrip (stripComments
    (replaceAll "export default".data [] content)))) []

/-- The base-file emptiness check of `js_to_excel` (lines 142-146): a
parse that yields zero top-level groups raises. -/
def parseChecked (content : Str) : Except Str (List (Str × List (Str × Str))) :=
  match parse_js_file content with
  | .error e => .error e
  | .ok d =>
    if d = [] then .error "Base file parsing resulted in empty data".data
    else .ok d

/-! ## `LocaleManager` helpers and `generate_js_files` (excel_to_js.py) -/

/-- The reserved sentinel key `_value`. -/
def sentinel : Str := "_value".data

/-- `"  " * indent`. -/
def indentStr (n : Nat) : Str := List.replicate (2 * n) ' '

/-- `_escape_string`: escape single quotes and newlines, and turn the
literal `<br/>` into an escaped newline (string inputs; non-string cells
do not occur in this development). -/
def escape_string (s : Str) : Str :=
  replaceAll ("<br/>".data) ('\\' :: 'n' :: [])
    (replaceAll ('\n' :: []) ('\\' :: 'n' :: [])
      (replaceAll (squote :: []) ('\\' :: squote :: []) s))

/-- Python `\w` (Unicode): ASCII word characters plus the non-ASCII word
characters.  The embedding is exact on ASCII and on U+00C0-U+017F (the
Latin-1 Supplement and Latin Extended-A letters; in that block every code
point is a word character except the two signs `×` U+00D7 and `÷` U+00F7);
the theorems below only evaluate it there. -/
def pyWordChar (c : Char) : Bool :=
  c.isAlphanum || c = '_' ||
    (decide (0xC0 ≤ c.toNat) && decide (c.toNat ≤ 0x17F) &&
      !(decide (c.toNat = 0xD7)) && !(decide (c.toNat = 0xF7)))

/-- `_validate_key`: empty or whitespace-only keys become `default_key`;
otherwise every character outside `[\w.]` becomes `_` (non-ASCII word
characters are kept) and a leading digit gets the prefix `k_`. -/
def validate_key (k : Str) : Str :=
  if k = [] ∨ pyStrip k = [] then "default_key".data
  else
    let k2 := k.map fun c => if pyWordChar c || c = '.' then c else '_'
    match k2 with
    | c :: _ => if c.isDigit then 'k' :: '_' :: k2 else k2
    | [] => k2

mutual

/-- Python `repr` of a parsed value (the dict case of the f-string
interpolation below); not exercised by the generator in this development,
where only strings are stored under the sentinel. -/
def pyReprJ : JValue → Str
  | .str s => [squote] ++ s ++ [squote]
  | .obj m => [lbrace] ++ pyReprList m ++ [rbrace]

def pyReprList : List (Str × JValue) → Str
  | [] => []
  | [(k, v)] => [squote] ++ k ++ [squote, ':', ' '] ++ pyReprJ v
  | (k, v) :: t =>
    [squote] ++ k ++ [squote, ':', ' '] ++ pyReprJ v ++ [',', ' '] ++ pyReprList t

end

/-- `str()` of a value as interpolated by the generator's f-strings:
identity on strings, dict repr on objects. -/
def fstr : JValue → Str
  | .str s => s
  | .obj m => [lbrace] ++ pyReprList m ++ [rbrace]

mutual

/-- Computable size of a parsed value (fuel measure for the generator). -/
def jvSize : JValue → Nat
  | .str _ => 1
  | .obj m => 1 + jlSize m

/-- Computable size of a dict (fuel measure for the generator). -/
def jlSize : List (Str × JValue) → Nat
  | [] => 0
  | (_, v) :: t => 1 + jvSize v + jlSize t

end

theorem jlSize_eraseKey_le (l : List (Str × JValue)) (k : Str) :
    jlSize (eraseKey l k) ≤ jlSize l := by
  induction l with
  | nil => simp [eraseKey]
  | cons p t ih =>
    obtain ⟨k1, v1⟩ := p
    simp only [eraseKey]
    by_cases h : k1 = k
    · simp only [h, if_true, jlSize]
      omega
    · simp only [h, if_false, jlSize]
      omega

/-- `generate_nested_content` of `excel_to_js.py` (fuelled on `jlSize`;
`generate_nested_content` below supplies sufficient fuel): entries in
order; an object holding the sentinel pops it, emits it as a direct
assignment, and emits a synthetic `<key>_nested` group exactly when other
keys remain (`if value:`); other objects recurse; strings emit
`key: 'value',`. -/
def genContentF : Nat → List (Str × JValue) → Nat → Str
  | 0, _, _ => []
  | _ + 1, [], _ => []
  | fuel + 1, (k, v) :: t, ind =>
    (match v with
     | .obj m =>
       match alookup m sentinel with
       | some sv =>
         indentStr ind ++ k ++ [':', ' ', squote] ++ fstr sv ++ [squote, ',', '\n'] ++
         (if (eraseKey m sentinel).isEmpty then []
          else
            indentStr ind ++ k ++ "_nested".data ++ [':', ' ', lbrace, '\n'] ++
            genContentF fuel (eraseKey m sentinel) (ind + 1) ++
            indentStr ind ++ [rbrace, ',', '\n'])
       | none =>
         indentStr ind ++ k ++ [':', ' ', lbrace, '\n'] ++
         genContentF fuel m (ind + 1) ++
         indentStr ind ++ [rbrace, ',', '\n']
     | .str s => indentStr ind ++ k ++ [':', ' ', squote] ++ s ++ [squote, ',', '\n'])
    ++ genContentF fuel t ind

/-- `generate_nested_content` of `excel_to_js.py`. -/
def generate_nested_content (l : List (Str × JValue)) (ind : Nat) : Str :=
  genContentF (jlSize l) l ind

theorem genContentF_fuel :
    ∀ (f1 : Nat) (l : List (Str × JValue)) (ind : Nat) (f2 : Nat),
      jlSize l ≤ f1 → jlSize l ≤ f2 →
      genContentF f1 l ind = genContentF f2 l ind := by
  intro f1
  induction f1 with
  | zero =>
    intro l ind f2 h1 _
    cases l with
    | nil => cases f2 <;> rfl
    | cons p t =>
      exfalso
      obtain ⟨k, v⟩ := p
      simp only [jlSize] at h1
      omega
  | succ f ih =>
    intro l ind f2 h1 h2
    cases l with
    | nil => cases f2 <;> rfl
    | cons p t =>
      cases f2 with
      | zero =>
        exfalso
        obtain ⟨k, v⟩ := p
        simp only [jlSize] at h2
        omega
      | succ f2' =>
        obtain ⟨k, v⟩ := p
        simp only [jlSize] at h1 h2
        simp only [genContentF]
        rw [ih t ind f2' (by omega) (by omega)]
        congr 1
        cases v with
        | str sv => rfl
        | obj m =>
          simp only [jvSize] at h1 h2
          have hsze : jlSize (eraseKey m sentinel) ≤ jlSize m :=
            jlSize_eraseKey_le m sentinel
          cases he : alookup m sentinel with
          | some sv =>
            simp only [he]
            by_cases hemp : (eraseKey m sentinel).isEmpty
            · rw [if_pos hemp, if_pos hemp]
            · rw [if_neg hemp, if_neg hemp]
              rw [ih (eraseKey m sentinel) (ind + 1) f2' (by omega) (by omega)]
          | none =>
            simp only [he]
            rw [ih m (ind + 1) f2' (by omega) (by omega)]

theorem generate_nested_content_cons (k : Str) (v : JValue)
    (t : List (Str × JValue)) (ind : Nat) :
    generate_nested_content ((k, v) :: t) ind =
      (match v with
       | .obj m =>
         match alookup m sentinel with
         | some sv =>
           indentStr ind ++ k ++ [':', ' ', squote] ++ fstr sv ++ [squote, ',', '\n'] ++
           (if (eraseKey m sentinel).isEmpty then []
            else
              indentStr ind ++ k ++ "_nested".data ++ [':', ' ', lbrace, '\n'] ++
              generate_nested_content (eraseKey m sentinel) (ind + 1) ++
              indentStr ind ++ [rbrace, ',', '\n'])
         | none =>
           indentStr ind ++ k ++ [':', ' ', lbrace, '\n'] ++
           generate_nested_content m (ind + 1) ++
           indentStr ind ++ [rbrace, ',', '\n']
       | .str s => indentStr ind ++ k ++ [':', ' ', squote] ++ s ++ [squote, ',', '\n'])
      ++ generate_nested_content t ind := by
  show genContentF (jlSize ((k, v) :: t)) ((k, v) :: t) ind = _
  have hsz : jlSize ((k, v) :: t) = (jvSize v + jlSize t) + 1 := by
    simp only [jlSize]
    omega
  rw [hsz]
  simp only [genContentF]
  rw [genContentF_fuel (jvSize v + jlSize t) t ind (jlSize t) (by omega) (Nat.le_refl _)]
  show _ = _ ++ genContentF (jlSize t) t ind
  congr 1
  cases v with
  | str sv => rfl
  | obj m =>
    simp only [jvSize]
    cases he : alookup m sentinel with
    | some sv =>
      simp only [he]
      by_cases hemp : (eraseKey m sentinel).isEmpty
      · rw [if_pos hemp, if_pos hemp]
      · rw [if_neg hemp, if_neg hemp]
        have hsze : jlSize (eraseKey m sentinel) ≤ jlSize m :=
          jlSize_eraseKey_le m sentinel
        rw [genContentF_fuel (1 + jlSize m + jlSize t) (eraseKey m sentinel)
          (ind + 1) (jlSize (eraseKey m sentinel)) (by omega) (Nat.le_refl _)]
        rfl
    | none =>
      simp only [he]
      rw [genContentF_fuel (1 + jlSize m + jlSize t) m (ind + 1) (jlSize m)
        (by omega) (Nat.le_refl _)]
      rfl

/-- The full per-locale document text assembled by `generate_js_files`
from a built locale dict. -/
def generate_js (d : List (Str × List (Str × JValue))) : Str :=
  "export default ".data ++ [lbrace, '\n'] ++
  (d.map fun p =>
    "  ".data ++ p.1 ++ [':', ' ', lbrace, '\n'] ++
    generate_nested_content p.2 2 ++
    "  ".data ++ [rbrace, ',', '\n']).join ++
  [rbrace, ';']

/-- The nested-key descent of `generate_js_files` (the `'.' in key`
branch): create missing intermediate dicts, convert a scalar found at an
intermediate segment into `{'_value': original}` before descending, and
assign the (escaped) value at the last segment. -/
def setIn (d : List (Str × JValue)) (parts : List Str) (v : Str) : List (Str × JValue) :=
  match parts with
  | [] => d
  | [p] => upsert d p (.str v)
  | p :: ps =>
    let cur : List (Str × JValue) :=
      match alookup d p with
      | some (.obj m) => m
      | some (.str w) => [(sentinel, .str w)]
      | none => []
    upsert d p (.obj (setIn cur ps v))

/-- One table cell processed by the per-locale loop of
`generate_js_files`: validate class and key, then insert the escaped
value into the locale dict (dotted keys descend; a plain key that
collides with an existing nested object stores the value under the
sentinel). -/
def processRow (d : List (Str × List (Str × JValue))) (cls0 key0 v : Str) :
    List (Str × List (Str × JValue)) :=
  let cls := validate_key cls0
  let key := validate_key key0
  let clsDict := (alookup d cls).getD []
  let newClsDict :=
    if '.' ∈ key then
      setIn clsDict ((splitDot key).map validate_key) (escape_string v)
    else
      match alookup clsDict key with
      | some (.obj m) => upsert clsDict key (.obj (upsert m sentinel (.str (escape_string v))))
      | _ => upsert clsDict key (.str (escape_string v))
  upsert d cls newClsDict

/-- The per-locale dict built by `generate_js_files` from the rows of the
table (cells read in row order; absent (`NaN`) cells are skipped). -/
def buildLocaleDict (rows : List (Str × Str × Option Str)) :
    List (Str × List (Str × JValue)) :=
  rows.foldl
    (fun d r =>
      match r.2.2 with
      | none => d
      | some v => processRow d r.1 r.2.1 v)
    []

/-! ## Association-list lemmas -/

theorem alookup_upsert_self {α : Type} (d : List (Str × α)) (k : Str) (v : α) :
    alookup (upsert d k v) k = some v := by
  induction d with
  | nil => simp [upsert, alookup]
  | cons p t ih =>
    obtain ⟨k1, v1⟩ := p
    simp only [upsert]
    by_cases h : k1 = k
    · simp [alookup, h]
    · simp [alookup, h, ih]

theorem alookup_upsert_ne {α : Type} (d : List (Str × α)) (k k' : Str) (v : α)
    (h : k ≠ k') : alookup (upsert d k v) k' = alookup d k' := by
  induction d with
  | nil => simp [upsert, alookup, h]
  | cons p t ih =>
    obtain ⟨k1, v1⟩ := p
    simp only [upsert]
    by_cases h1 : k1 = k
    · subst h1
      simp [alookup, h]
    · simp only [h1, if_false, alookup]
      by_cases h2 : k1 = k'
      · simp [h2]
      · simp [h2, ih]

theorem alookup_upsert_isSome {α : Type} (d : List (Str × α)) (a k : Str) (w : α)
    (h : (alookup d k).isSome) : (alookup (upsert d a w) k).isSome := by
  by_cases he : a = k
  · subst he
    simp [alookup_upsert_self]
  · rw [alookup_upsert_ne d a k w he]
    exact h

/-! ### Claim C3: conflict handling when nesting -/

/-- C3 (amended): (a) when the descent of `generate_js_files` meets an
intermediate segment holding a scalar leaf, the converted node keeps the
old value in the sentinel slot `_value` (provided the next segment is not
itself the sentinel key); (b) when a plain (dot-free) key receives a
direct string value while it already holds a nested mapping, the escaped
value is stored under the sentinel and all other keys of the mapping are
unchanged.  (The dotted counterpart of (b) does not hold; see the
counterexample.) -/
theorem claim3_nesting_conflicts :
    (∀ (d : List (Str × JValue)) (p : Str) (ps : List Str) (v w : Str),
        alookup d p = some (.str w) → ps ≠ [] → ps.head? ≠ some sentinel →
        ∃ m, alookup (setIn d (p :: ps) v) p = some (.obj m) ∧
          alookup m sentinel = some (.str w)) ∧
    (∀ (d : List (Str × List (Str × JValue))) (cls0 key0 v : Str)
        (m : List (Str × JValue)),
        '.' ∉ validate_key key0 →
        alookup ((alookup d (validate_key cls0)).getD []) (validate_key key0) =
          some (.obj m) →
        ∃ m', alookup ((alookup (processRow d cls0 key0 v)
                  (validate_key cls0)).getD []) (validate_key key0) =
                some (.obj m') ∧
          alookup m' sentinel = some (.str (escape_string v)) ∧
          ∀ k', k' ≠ sentinel → alookup m' k' = alookup m k') := by
  constructor
  · intro d p ps v w hd hne hhd
    cases ps with
    | nil => exact absurd rfl hne
    | cons q ps' =>
      have hq : q ≠ sentinel := by
        intro h
        apply hhd
        simp [h]
      have hcur :
          setIn d (p :: q :: ps') v =
            upsert d p (.obj (setIn [(sentinel, .str w)] (q :: ps') v)) := by
        simp only [setIn, hd]
      refine ⟨setIn [(sentinel, .str w)] (q :: ps') v, ?_, ?_⟩
      · rw [hcur, alookup_upsert_self]
      · cases ps' with
        | nil =>
          simp only [setIn]
          rw [alookup_upsert_ne _ q sentinel _ hq]
          simp [alookup]
        | cons r rs =>
          simp only [setIn]
          rw [alookup_upsert_ne _ q sentinel _ hq]
          simp [alookup]
  · intro d cls0 key0 v m hdot hm
    refine ⟨upsert m sentinel (.str (escape_string v)), ?_, ?_, ?_⟩
    · simp only [processRow]
      rw [if_neg hdot, hm]
      rw [alookup_upsert_self]
      simp only [Option.getD_some]
      rw [alookup_upsert_self]
    · exact alookup_upsert_self m sentinel _
    · intro k' hk'
      exact alookup_upsert_ne m sentinel k' _ (fun h => hk' h.symm)

/-- Table rows for the C3 counterexample: under one group, `a.b.c = X`
then `a.b = Y`. -/
def rowsC3cex : List (Str × Str × Option Str) :=
  [("g".data, "a.b.c".data, some "X".data), ("g".data, "a.b".data, some "Y".data)]

/-- C3 counterexample: after inserting `a.b.c = X` and then assigning the
direct value `a.b = Y`, the whole nested mapping `{c: X}` that lived at
`a.b` is overwritten by the plain string `Y`: the value `X` is lost, no
sentinel slot is created, and the mapping's other keys are not kept. -/
theorem claim3_counterexample :
    buildLocaleDict rowsC3cex =
      [("g".data, [("a".data, .obj [("b".data, .str "Y".data)])])] := by
  rfl

/-- Witness for the amended C3 theorem at concrete inputs. -/
theorem claim3_witness :
    (alookup [(("a").data, JValue.str "X".data)] "a".data = some (.str "X".data) ∧
      ∃ m, alookup (setIn [(("a").data, JValue.str "X".data)]
            ["a".data, "b".data] "Y".data) "a".data = some (.obj m) ∧
        alookup m sentinel = some (.str "X".data)) ∧
    ('.' ∉ validate_key "k".data ∧
      ∃ m', alookup ((alookup (processRow [("g".data,
              [("k".data, JValue.obj [("x".data, JValue.str "Q".data)])])]
              "g".data "k".data "V".data) (validate_key "g".data)).getD [])
              (validate_key "k".data) = some (.obj m') ∧
        alookup m' sentinel = some (.str (escape_string "V".data)) ∧
        ∀ k', k' ≠ sentinel →
          alookup m' k' = alookup [("x".data, JValue.str "Q".data)] k') := by
  constructor
  · refine ⟨rfl, ?_⟩
    exact claim3_nesting_conflicts.1
      [(("a").data, JValue.str "X".data)] "a".data ["b".data] "Y".data "X".data
      rfl (by simp) (by decide)
  · refine ⟨by decide, ?_⟩
    exact claim3_nesting_conflicts.2
      [("g".data, [("k".data, JValue.obj [("x".data, JValue.str "Q".data)])])]
      "g".data "k".data "V".data [("x".data, JValue.str "Q".data)]
      (by decide) rfl

/-! ### Claim C4: serializing a node that holds the sentinel -/

/-- C4: when a node holds the sentinel `_value`, `generate_nested_content`
emits the popped sentinel as a direct assignment `key: 'value',` and then,
exactly when at least one other child remains, a synthetic sibling group
named `key_nested` containing the remaining children. -/
theorem claim4_sentinel_serialization (k : Str) (m : List (Str × JValue))
    (ind : Nat) (sv : Str) (h : alookup m sentinel = some (.str sv)) :
    generate_nested_content [(k, .obj m)] ind =
      indentStr ind ++ k ++ [':', ' ', squote] ++ sv ++ [squote, ',', '\n'] ++
      (if (eraseKey m sentinel).isEmpty then []
       else
         indentStr ind ++ k ++ "_nested".data ++ [':', ' ', lbrace, '\n'] ++
         generate_nested_content (eraseKey m sentinel) (ind + 1) ++
         indentStr ind ++ [rbrace, ',', '\n']) := by
  rw [generate_nested_content_cons]
  simp only [h, fstr]
  show _ ++ generate_nested_content [] ind = _
  simp only [generate_nested_content, jlSize, genContentF, List.append_nil]

/-- Witness for C4: a node with sentinel value `X` and one child `b = Y`. -/
theorem claim4_witness :
    alookup [(sentinel, JValue.str "X".data), ("b".data, JValue.str "Y".data)]
        sentinel = some (.str "X".data) ∧
    generate_nested_content
        [("a".data, .obj [(sentinel, JValue.str "X".data),
          ("b".data, JValue.str "Y".data)])] 2 =
      indentStr 2 ++ "a".data ++ [':', ' ', squote] ++ "X".data ++
        [squote, ',', '\n'] ++
      (if (eraseKey [(sentinel, JValue.str "X".data),
            ("b".data, JValue.str "Y".data)] sentinel).isEmpty then []
       else
         indentStr 2 ++ "a".data ++ "_nested".data ++ [':', ' ', lbrace, '\n'] ++
         generate_nested_content (eraseKey [(sentinel, JValue.str "X".data),
           ("b".data, JValue.str "Y".data)] sentinel) 3 ++
         indentStr 2 ++ [rbrace, ',', '\n']) :=
  ⟨rfl, claim4_sentinel_serialization "a".data _ 2 "X".data rfl⟩

/-! ### Claim C8: `_validate_key` -/

/-- One row of the merged table (the `order` column is kept as `rank`;
the source drops it after sorting). -/
structure MRow where
  cls : Str
  key : Str
  rank : Nat
  vals : List (Str × Option JValue)

def rankLe (a c : MRow) : Prop := a.rank ≤ c.rank

instance : DecidableRel rankLe := fun a c => Nat.decLe a.rank c.rank

instance : IsTotal MRow rankLe := ⟨fun a c => Nat.le_total a.rank c.rank⟩

instance : IsTrans MRow rankLe := ⟨fun _ _ _ => Nat.le_trans⟩

/-- The value a left join contributes for one (class, key) pair from a
flattened document with distinct pairs (the first match). -/
def lookupFlat (fl : List FlatRow) (cls key : Str) : Option JValue :=
  (fl.find? fun f => f.group == cls && f.key == key).map (·.val)

/-- `pd.merge(base_df, current_df[['class','key',lang]], on=['class','key'],
how='left')`: each existing row is joined with every matching right row
in right order (the row is duplicated when several match); a row with no
match is kept once, the locale's value missing. -/
def leftJoinCol (rows : List MRow) (lang : Str) (fl : List FlatRow) : List MRow :=
  (rows.map fun r =>
    match fl.filter fun f => f.group == r.cls && f.key == r.key with
    | [] => [{ r with vals := r.vals ++ [(lang, none)] }]
    | ms => ms.map fun f => { r with vals := r.vals ++ [(lang, some f.val)] }).flatten

/-- The (class, key) pairs of a flattened document. -/
def pairKeys (fl : List FlatRow) : List (Str × Str) :=
  fl.map fun f => (f.group, f.key)

theorem filter_unique_pairs (cls key : Str) :
    ∀ fl : List FlatRow, (pairKeys fl).Nodup →
      (fl.filter fun f => f.group == cls && f.key == key) =
        (match fl.find? fun f => f.group == cls && f.key == key with
         | none => []
         | some f => [f]) := by
  intro fl
  induction fl with
  | nil => intro _; rfl
  | cons f t ih =>
    intro hnd
    simp only [pairKeys, List.map_cons, List.nodup_cons] at hnd
    by_cases hp : (f.group == cls && f.key == key) = true
    · have htf : (t.filter fun f2 => f2.group == cls && f2.key == key) = [] := by
        rw [List.filter_eq_nil_iff]
        intro f2 hf2 hp2
        simp only [Bool.and_eq_true, beq_iff_eq] at hp hp2
        apply hnd.1
        rw [show ((f.group, f.key) : Str × Str) = (f2.group, f2.key) by
          rw [hp.1, hp.2, hp2.1, hp2.2]]
        exact List.mem_map.mpr ⟨f2, hf2, rfl⟩
      simp [List.filter_cons, List.find?_cons, hp, htf]
    · have hpf : (f.group == cls && f.key == key) = false :=
        Bool.eq_false_iff.mpr hp
      simp only [List.filter_cons, List.find?_cons, hpf, Bool.false_eq_true,
        if_false]
      exact ih hnd.2

theorem flatten_singletons {α β : Type} (g : α → β) :
    ∀ l : List α, (l.map fun x => [g x]).flatten = l.map g := by
  intro l
  induction l with
  | nil => rfl
  | cons x t ih =>
    simp only [List.map_cons, List.flatten_cons, ih, List.singleton_append]

/-- Under distinct right (class, key) pairs the general left join is the
one-value-per-row lookup join. -/
theorem leftJoinCol_unique (rows : List MRow) (lang : Str) (fl : List FlatRow)
    (hnd : (pairKeys fl).Nodup) :
    leftJoinCol rows lang fl =
      rows.map fun r =>
        { r with vals := r.vals ++ [(lang, lookupFlat fl r.cls r.key)] } := by
  unfold leftJoinCol
  have hmap : (rows.map fun r =>
      match fl.filter fun f => f.group == r.cls && f.key == r.key with
      | [] => [{ r with vals := r.vals ++ [(lang, none)] }]
      | ms => ms.map fun f => { r with vals := r.vals ++ [(lang, some f.val)] }) =
      rows.map fun r =>
        [{ r with vals := r.vals ++ [(lang, lookupFlat fl r.cls r.key)] }] := by
    apply List.map_congr_left
    intro r _
    rw [filter_unique_pairs r.cls r.key fl hnd]
    cases he : fl.find? fun f => f.group == r.cls && f.key == r.key with
    | none =>
      simp only [lookupFlat, he, Option.map_none']
    | some f =>
      simp only [lookupFlat, he, Option.map_some', List.map_cons, List.map_nil]
  rw [hmap, flatten_singletons]

/-- `js_to_excel` up to (but excluding) the final sort: the base
emptiness checks, the base rows, and the per-locale left joins. -/
def js_to_excel_presort (base : Str × List (Str × JValue))
    (others : List (Str × List (Str × JValue))) : Except Str (List MRow) :=
  if base.2.isEmpty then .error "Base file parsing resulted in empty data".data
  else if (flatten_dict base.2).isEmpty then
    .error "Base file flattening resulted in empty data".data
  else
    let rows0 := (flatten_dict base.2).map fun f =>
      ⟨f.group, f.key, f.rank, [(base.1, some f.val)]⟩
    .ok (others.foldl
      (fun rs p =>
        if p.2.isEmpty then rs
        else if (flatten_dict p.2).isEmpty then rs
        else leftJoinCol rs p.1 (flatten_dict p.2)) rows0)

/-- `js_to_excel` with `sort_values('order')` refined to the stable
ordering (one admissible quicksort outcome). -/
def js_to_excel (base : Str × List (Str × JValue))
    (others : List (Str × List (Str × JValue))) : Except Str (List MRow) :=
  match js_to_excel_presort base others with
  | .error e => .error e
  | .ok rows => .ok (List.insertionSort rankLe rows)

theorem joinFold (others : List (Str × List (Str × JValue)))
    (ho : ∀ p ∈ others, p.2.isEmpty = false ∧ (flatten_dict p.2).isEmpty = false ∧
      (pairKeys (flatten_dict p.2)).Nodup) :
    ∀ rows : List MRow,
      others.foldl
        (fun rs p =>
          if p.2.isEmpty then rs
          else if (flatten_dict p.2).isEmpty then rs
          else leftJoinCol rs p.1 (flatten_dict p.2)) rows =
      rows.map fun r =>
        { r with vals := r.vals ++
            others.map fun p => (p.1, lookupFlat (flatten_dict p.2) r.cls r.key) } := by
  induction others with
  | nil =>
    intro rows
    simp only [List.foldl_nil, List.map_nil, List.append_nil]
    have he : (fun r : MRow => { r with vals := r.vals }) = fun r => r := by
      funext r
      rfl
    rw [he]
    simp
  | cons p t ih =>
    intro rows
    have hp := ho p (List.mem_cons_self p t)
    have ht : ∀ q ∈ t, q.2.isEmpty = false ∧ (flatten_dict q.2).isEmpty = false ∧
        (pairKeys (flatten_dict q.2)).Nodup :=
      fun q hq => ho q (List.mem_cons_of_mem p hq)
    simp only [List.foldl_cons, hp.1, hp.2.1, Bool.false_eq_true, if_false]
    rw [leftJoinCol_unique rows p.1 (flatten_dict p.2) hp.2.2]
    rw [ih ht (rows.map fun r =>
      { r with vals := r.vals ++ [(p.1, lookupFlat (flatten_dict p.2) r.cls r.key)] })]
    simp only [List.map_map, List.map_cons]
    apply List.map_congr_left
    intro r _
    simp only [Function.comp]
    congr 1
    simp only [List.append_assoc, List.singleton_append]

/-- C5 (amended): when every later locale's flattened document has
distinct (class, key) pairs (a repeated pair makes the left merge
duplicate base rows, see the counterexample), the pre-sort table is
exactly the base locale's flattened rows, each carrying the base value
and one left-joined value per later locale; the final table is any
ordering of those rows ascending in the base orderRank (pandas' unstable
quicksort guarantees no more), so its rows are exactly the base
(group, keyPath) pairs up to that reordering, rows present only in a
later locale are dropped, and the stable refinement `js_to_excel`
realizes one such ordering. -/
theorem claim5_merge_left_join (base : Str × List (Str × JValue))
    (others : List (Str × List (Str × JValue)))
    (hb : base.2.isEmpty = false)
    (hbf : (flatten_dict base.2).isEmpty = false)
    (ho : ∀ p ∈ others, p.2.isEmpty = false ∧ (flatten_dict p.2).isEmpty = false ∧
      (pairKeys (flatten_dict p.2)).Nodup) :
    js_to_excel_presort base others =
      .ok ((flatten_dict base.2).map fun f =>
        ⟨f.group, f.key, f.rank,
          (base.1, some f.val) ::
            others.map fun p => (p.1, lookupFlat (flatten_dict p.2) f.group f.key)⟩) ∧
    js_to_excel base others =
      .ok (List.insertionSort rankLe ((flatten_dict base.2).map fun f =>
        ⟨f.group, f.key, f.rank,
          (base.1, some f.val) ::
            others.map fun p => (p.1, lookupFlat (flatten_dict p.2) f.group f.key)⟩)) ∧
    ∀ res : List MRow,
      res.Perm ((flatten_dict base.2).map fun f =>
        ⟨f.group, f.key, f.rank,
          (base.1, some f.val) ::
            others.map fun p => (p.1, lookupFlat (flatten_dict p.2) f.group f.key)⟩) →
      List.Sorted rankLe res →
      ((res.map fun r => (r.cls, r.key)).Perm
          ((flatten_dict base.2).map fun f => (f.group, f.key)) ∧
        List.Sorted rankLe res) := by
  have h1 : js_to_excel_presort base others =
      .ok ((flatten_dict base.2).map fun f =>
        ⟨f.group, f.key, f.rank,
          (base.1, some f.val) ::
            others.map fun p => (p.1, lookupFlat (flatten_dict p.2) f.group f.key)⟩) := by
    simp only [js_to_excel_presort, hb, hbf, Bool.false_eq_true, if_false]
    rw [joinFold others ho]
    simp only [List.map_map]
    rfl
  refine ⟨h1, ?_, ?_⟩
  · unfold js_to_excel
    rw [h1]
  · intro res hperm hsort
    refine ⟨?_, hsort⟩
    have hpairs := hperm.map fun r : MRow => (r.cls, r.key)
    simpa [List.map_map, Function.comp] using hpairs

/-- Base and later documents for the C5 counterexample: the later
locale's flatten contains the (class, key) pair `(g, a.b)` twice — once
from the literal key `a.b`, once from the nested `a → b` (the depth-3
branch joins segments with a dot). -/
def baseC5cex : Str × List (Str × JValue) :=
  ("en".data, [("g".data, .obj [("a.b".data, .str "X".data)])])

def othersC5cex : List (Str × List (Str × JValue)) :=
  [("zh".data, [("g".data, .obj
    [("a.b".data, .str "L".data),
     ("a".data, .obj [("b".data, .str "N".data)])])])]

/-- C5 counterexample: the repeated right pair makes the left merge
duplicate the base row, so the merged table has two rows while the base
flatten has a single (group, keyPath) pair — under every admissible sort
output the table's rows are not "exactly the base pairs". -/
theorem claim5_counterexample :
    js_to_excel_presort baseC5cex othersC5cex =
      .ok [⟨"g".data, "a.b".data, 0,
             [("en".data, some (.str "X".data)), ("zh".data, some (.str "L".data))]⟩,
           ⟨"g".data, "a.b".data, 0,
             [("en".data, some (.str "X".data)), ("zh".data, some (.str "N".data))]⟩] ∧
    ((flatten_dict baseC5cex.2).map fun f => (f.group, f.key)) =
      [("g".data, "a.b".data)] ∧
    ∀ res : List MRow,
      res.Perm [⟨"g".data, "a.b".data, 0,
            [("en".data, some (.str "X".data)), ("zh".data, some (.str "L".data))]⟩,
          ⟨"g".data, "a.b".data, 0,
            [("en".data, some (.str "X".data)), ("zh".data, some (.str "N".data))]⟩] →
      ¬ (res.map fun r => (r.cls, r.key)).Perm
          ((flatten_dict baseC5cex.2).map fun f => (f.group, f.key)) := by
  refine ⟨rfl, rfl, ?_⟩
  intro res hperm hcon
  have hflat : ((flatten_dict baseC5cex.2).map fun f => (f.group, f.key)) =
      [("g".data, "a.b".data)] := rfl
  rw [hflat] at hcon
  have h1 := hperm.length_eq
  have h2 := hcon.length_eq
  simp only [List.length_map, List.length_cons, List.length_nil] at h1 h2
  omega

/-- Witness documents for C5: base `en` defines `g.k1`, `g.k2`; `zh`
defines only `g.k1` plus an extra row `g.k3` (dropped by the merge). -/
def baseC5 : Str × List (Str × JValue) :=
  ("en".data, [("g".data, .obj [("k1".data, .str "A".data), ("k2".data, .str "B".data)])])

def othersC5 : List (Str × List (Str × JValue)) :=
  [("zh".data, [("g".data, .obj [("k1".data, .str "甲".data), ("k3".data, .str "丙".data)])])]

/-- The C5 witness pre-sort table. -/
def rowsC5wit : List MRow :=
  (flatten_dict baseC5.2).map fun f =>
    ⟨f.group, f.key, f.rank,
      (baseC5.1, some f.val) ::
        othersC5.map fun p => (p.1, lookupFlat (flatten_dict p.2) f.group f.key)⟩

theorem claim5_witness :
    (baseC5.2.isEmpty = false ∧ (flatten_dict baseC5.2).isEmpty = false ∧
      ∀ p ∈ othersC5, p.2.isEmpty = false ∧ (flatten_dict p.2).isEmpty = false ∧
        (pairKeys (flatten_dict p.2)).Nodup) ∧
    (((List.insertionSort rankLe rowsC5wit).map fun r => (r.cls, r.key)).Perm
        ((flatten_dict baseC5.2).map fun f => (f.group, f.key)) ∧
      List.Sorted rankLe (List.insertionSort rankLe rowsC5wit)) :=
  ⟨⟨by decide, by decide, by decide⟩,
    (claim5_merge_left_join baseC5 othersC5 (by decide) (by decide) (by decide)).2.2
      (List.insertionSort rankLe rowsC5wit)
      (List.perm_insertionSort rankLe rowsC5wit)
      (List.sorted_insertionSort rankLe rowsC5wit)⟩

/-! ## `update_language_files` (update_excel_to_json.py) -/

/-- `update_language_files`: start from each language's existing JSON
dict (an absent or unreadable file gives `{}`), then for every table row
and every language column with a present cell set `dict[key] = value`;
the resulting dicts are written back whole. -/
def update_language_files (langs : List Str)
    (rows : List (Str × List (Str × Option Str)))
    (existing : List (Str × List (Str × Str))) : List (Str × List (Str × Str)) :=
  rows.foldl
    (fun fs r =>
      fs.map fun lf =>
        match alookup r.2 lf.1 with
        | some (some v) => (lf.1, upsert lf.2 r.1 v)
        | _ => lf)
    (langs.map fun l => (l, (alookup existing l).getD []))

theorem alookup_map_graph {α : Type} (g : Str → α) :
    ∀ (langs : List Str) (l : Str), l ∈ langs →
      alookup (langs.map fun x => (x, g x)) l = some (g l) := by
  intro langs
  induction langs with
  | nil => intro l h; cases h
  | cons a t ih =>
    intro l h
    simp only [List.map_cons, alookup]
    by_cases he : a = l
    · subst he
      simp
    · simp only [he, if_false]
      exact ih l (by
        cases h with
        | head => exact absurd rfl he
        | tail _ h2 => exact h2)

theorem alookup_map_keyfix {β : Type} (f : Str × β → Str × β)
    (hf : ∀ x, (f x).1 = x.1) :
    ∀ (fs : List (Str × β)) (q : Str),
      alookup (fs.map f) q = (alookup fs q).map fun b => (f (q, b)).2 := by
  intro fs
  induction fs with
  | nil => intro q; rfl
  | cons p t ih =>
    intro q
    obtain ⟨k1, b1⟩ := p
    simp only [List.map_cons, alookup]
    have h1 : (f (k1, b1)).1 = k1 := hf (k1, b1)
    rw [h1]
    by_cases he : k1 = q
    · subst he
      simp
    · simp only [he, if_false]
      exact ih q

theorem updateFold (l k : Str) :
    ∀ (rows : List (Str × List (Str × Option Str)))
      (fs : List (Str × List (Str × Str))) (d0 : List (Str × Str)),
      alookup fs l = some d0 → (alookup d0 k).isSome →
      ∃ d', alookup
          (rows.foldl
            (fun fs r =>
              fs.map fun lf =>
                match alookup r.2 lf.1 with
                | some (some v) => (lf.1, upsert lf.2 r.1 v)
                | _ => lf) fs) l = some d' ∧
        (alookup d' k).isSome ∧
        ((∀ key cells, (key, cells) ∈ rows → key = k →
            ∀ w, alookup cells l ≠ some (some w)) →
          alookup d' k = alookup d0 k) := by
  intro rows
  induction rows with
  | nil =>
    intro fs d0 h hk
    exact ⟨d0, h, hk, fun _ => rfl⟩
  | cons r t ih =>
    intro fs d0 h hk
    simp only [List.foldl_cons]
    set f : Str × List (Str × Str) → Str × List (Str × Str) := fun lf =>
      match alookup r.2 lf.1 with
      | some (some v) => (lf.1, upsert lf.2 r.1 v)
      | _ => lf with hfdef
    have hf : ∀ x, (f x).1 = x.1 := by
      intro x
      simp only [hfdef]
      cases alookup r.2 x.1 with
      | none => rfl
      | some o =>
        cases o with
        | none => rfl
        | some v => rfl
    have hstep : alookup (fs.map f) l = some ((f (l, d0)).2) := by
      rw [alookup_map_keyfix f hf fs l, h]
      rfl
    set d1 := (f (l, d0)).2 with hd1
    have hk1 : (alookup d1 k).isSome := by
      simp only [hd1, hfdef]
      cases alookup r.2 l with
      | none => exact hk
      | some o =>
        cases o with
        | none => exact hk
        | some v => exact alookup_upsert_isSome d0 r.1 k v hk
    obtain ⟨d', hd', hk', hunch⟩ := ih (fs.map f) d1 hstep hk1
    refine ⟨d', hd', hk', ?_⟩
    intro hnop
    have ht : alookup d' k = alookup d1 k :=
      hunch fun key cells hmem hkey w =>
        hnop key cells (List.mem_cons_of_mem r hmem) hkey w
    rw [ht]
    simp only [hd1, hfdef]
    cases he : alookup r.2 l with
    | none => rfl
    | some o =>
      cases o with
      | none => rfl
      | some v =>
        have hne : r.1 ≠ k := by
          intro hrk
          exact hnop r.1 r.2 (by
            rw [show (r.1, r.2) = r from rfl]
            exact List.mem_cons_self r t) hrk v (by rw [he])
        simp only []
        rw [alookup_upsert_ne d0 r.1 k v hne]

/-- C10: regenerating the per-locale flat JSON documents never deletes:
every key present in a language's existing document is still present in
the written output, and its value is unchanged unless some table row
provides a present value for that key and language. -/
theorem claim10_update_preserves (langs : List Str)
    (rows : List (Str × List (Str × Option Str)))
    (existing : List (Str × List (Str × Str))) (l k : Str) (v : Str)
    (hl : l ∈ langs)
    (hv : alookup ((alookup existing l).getD []) k = some v) :
    ∃ d', alookup (update_language_files langs rows existing) l = some d' ∧
      (alookup d' k).isSome ∧
      ((∀ key cells, (key, cells) ∈ rows → key = k →
          ∀ w, alookup cells l ≠ some (some w)) →
        alookup d' k = some v) := by
  have hinit : alookup (langs.map fun x => (x, (alookup existing x).getD [])) l =
      some ((alookup existing l).getD []) :=
    alookup_map_graph (fun x => (alookup existing x).getD []) langs l hl
  obtain ⟨d', hd', hk', hunch⟩ := updateFold l k rows
    (langs.map fun x => (x, (alookup existing x).getD []))
    ((alookup existing l).getD []) hinit (by rw [hv]; rfl)
  refine ⟨d', hd', hk', ?_⟩
  intro hnop
  rw [hunch hnop, hv]

/-- Witness for C10: one language `en` whose existing document holds
`k1 = V`; the table updates only `k2`. -/
theorem claim10_witness :
    ("en".data ∈ ["en".data] ∧
      alookup ((alookup [("en".data, [("k1".data, "V".data)])] "en".data).getD [])
        "k1".data = some "V".data) ∧
    ∃ d', alookup (update_language_files ["en".data]
        [("k2".data, [("en".data, some "W".data)])]
        [("en".data, [("k1".data, "V".data)])]) "en".data = some d' ∧
      (alookup d' "k1".data).isSome ∧
      ((∀ key cells,
          (key, cells) ∈ [("k2".data, [("en".data, some "W".data)])] →
          key = "k1".data → ∀ w, alookup cells "en".data ≠ some (some w)) →
        alookup d' "k1".data = some "V".data) :=
  ⟨⟨List.mem_singleton.mpr rfl, rfl⟩,
    claim10_update_preserves ["en".data] [("k2".data, [("en".data, some "W".data)])]
      [("en".data, [("k1".data, "V".data)])] "en".data "k1".data "V".data
      (List.mem_singleton.mpr rfl) rfl⟩

/-! ## `json_to_excel` (json_to_excel.py): the flat JSON merge.
`pd.merge(..., how='outer', sort=False)` keeps the left rows in order and
appends right-only rows at the end in right order; `sort_values` is
modelled as a stable sort. -/

/-- One row of the flat JSON merge table. -/
structure JRow where
  key : Str
  vals : List (Str × Option Str)
deriving DecidableEq

/-- Outer merge on `key` with a locale's flat dict: left rows in order,
each gaining the locale's value; right-only keys appended at the end in
file order (columns a row never received are modelled as lookup misses). -/
def outerMerge (rows : List JRow) (lang : Str) (data : List (Str × Str)) : List JRow :=
  (rows.map fun r => ⟨r.key, r.vals ++ [(lang, alookup data r.key)]⟩) ++
  ((data.filter fun p => !(rows.any fun r => r.key == p.1)).map
    fun p => ⟨p.1, [(lang, some p.2)]⟩)

/-- Python `zh_cn_keys.index(x)` (first index), as an `Option`. -/
def pyIndex (ks : List Str) (x : Str) : Option Nat :=
  match ks with
  | [] => none
  | k :: t => if k = x then some 0 else (pyIndex t x).map (· + 1)

/-- The `sort_order` column: the baseline index of the key, or
`len(zh_cn_keys)` when the key is not a baseline key. -/
def soVal (bk : List Str) (k : Str) : Nat :=
  match pyIndex bk k with
  | some i => i
  | none => bk.length

/-- `json_to_excel.py` on the parsed per-locale flat dicts, up to (but
excluding) the final sort: `base` is the baseline (`zh_cn`) file's pairs,
`others` the remaining locale files present, in the fixed language order.
The baseline seeds the table; every other file outer-merges on `key`; the
missing-keys block re-adds keys of the union not present in the table
(provably none). -/
def json_to_excel_presort (base : List (Str × Str))
    (others : List (Str × List (Str × Str))) : List JRow :=
  let baseKeys := base.map Prod.fst
  let rows0 : List JRow := base.map fun p => ⟨p.1, [("zh_cn".data, some p.2)]⟩
  let rows1 := others.foldl (fun rs p => outerMerge rs p.1 p.2) rows0
  let allKeys := baseKeys ++ (others.map fun p => p.2.map Prod.fst).join
  let missing := allKeys.filter fun k => !(rows1.any fun r => r.key == k)
  rows1 ++ missing.map fun k => ⟨k, [("zh_cn".data, none)]⟩

/-- `sort_values(by='sort_order')` with pandas' default quicksort: the
output is some permutation of the rows, ascending in `sort_order`;
stability is not guaranteed, so any such permutation is admissible. -/
def sortValuesOut (bk : List Str) (rows res : List JRow) : Prop :=
  res.Perm rows ∧
    List.Sorted (fun a c : JRow => soVal bk a.key ≤ soVal bk c.key) res

/-- `json_to_excel.py` with the sort refined to the stable ordering (one
admissible quicksort outcome). -/
def json_to_excel_merge (base : List (Str × Str))
    (others : List (Str × List (Str × Str))) : List JRow :=
  List.insertionSort
    (fun a c => soVal (base.map Prod.fst) a.key ≤ soVal (base.map Prod.fst) c.key)
    (json_to_excel_presort base others)

/-- The spec's discovery order: per later locale, its keys not yet seen,
in file order (a second, spec-side definition used to compare with the
merge built from the source). -/
def specNewKeys (seen : List Str) : List (Str × List (Str × Str)) → List Str
  | [] => []
  | p :: t =>
    let ks := (p.2.map Prod.fst).filter fun k => decide (k ∉ seen)
    ks ++ specNewKeys (seen ++ ks) t

theorem any_key_beq (rows : List JRow) (x : Str) :
    (rows.any fun r => r.key == x) = decide (x ∈ rows.map JRow.key) := by
  induction rows with
  | nil => simp
  | cons r t ih =>
    simp only [List.any_cons, ih, List.map_cons, List.mem_cons]
    by_cases he : r.key = x
    · simp [he]
    · have h1 : (r.key == x) = false := beq_eq_false_iff_ne.mpr he
      have h2 : decide (x = r.key) = false := decide_eq_false fun hx => he hx.symm
      rw [h1, Bool.decide_or, h2]

theorem outerMerge_keys (rows : List JRow) (lang : Str) (data : List (Str × Str)) :
    (outerMerge rows lang data).map JRow.key =
      rows.map JRow.key ++
        (data.map Prod.fst).filter fun k => decide (k ∉ rows.map JRow.key) := by
  simp only [outerMerge, List.map_append, List.map_map]
  rw [List.filter_map]
  have hpred : ((fun k => decide (k ∉ rows.map JRow.key)) ∘ Prod.fst) =
      fun p : Str × Str => !(rows.any fun r => r.key == p.1) := by
    funext p
    simp only [Function.comp, any_key_beq, decide_not]
  rw [hpred]
  congr 1
  all_goals exact List.map_congr_left fun _ _ => rfl

theorem specNewKeys_not_seen :
    ∀ (others : List (Str × List (Str × Str))) (seen : List Str) (k : Str),
      k ∈ specNewKeys seen others → k ∉ seen := by
  intro others
  induction others with
  | nil => intro seen k h; cases h
  | cons p t ih =>
    intro seen k h
    simp only [specNewKeys, List.mem_append] at h
    cases h with
    | inl h1 =>
      have h2 := List.of_mem_filter h1
      simpa using h2
    | inr h2 =>
      have h3 := ih (seen ++ ((p.2.map Prod.fst).filter fun k => decide (k ∉ seen))) k h2
      intro hk
      exact h3 (List.mem_append_left _ hk)

theorem mergeFold_keys :
    ∀ (others : List (Str × List (Str × Str))) (rows : List JRow),
      (others.foldl (fun rs p => outerMerge rs p.1 p.2) rows).map JRow.key =
        rows.map JRow.key ++ specNewKeys (rows.map JRow.key) others := by
  intro others
  induction others with
  | nil => intro rows; simp [specNewKeys]
  | cons p t ih =>
    intro rows
    simp only [List.foldl_cons, specNewKeys]
    rw [ih (outerMerge rows p.1 p.2), outerMerge_keys]
    simp [List.append_assoc]

theorem mem_fold_keys :
    ∀ (others : List (Str × List (Str × Str))) (seen : List Str) (k : Str)
      (p : Str × List (Str × Str)), p ∈ others → k ∈ p.2.map Prod.fst →
      k ∈ seen ++ specNewKeys seen others := by
  intro others
  induction others with
  | nil => intro seen k p h; cases h
  | cons q t ih =>
    intro seen k p hp hk
    simp only [specNewKeys, List.mem_append]
    cases hp with
    | head =>
      by_cases hs : k ∈ seen
      · exact Or.inl hs
      · exact Or.inr (Or.inl (List.mem_filter.mpr ⟨hk, decide_eq_true hs⟩))
    | tail _ hp2 =>
      have h4 := ih (seen ++ ((q.2.map Prod.fst).filter fun k => decide (k ∉ seen)))
        k p hp2 hk
      simp only [List.mem_append] at h4
      rcases h4 with (h1 | h1) | h1
      · exact Or.inl h1
      · exact Or.inr (Or.inl h1)
      · exact Or.inr (Or.inr h1)

theorem pyIndex_isSome_of_mem (x : Str) :
    ∀ ks : List Str, x ∈ ks → (pyIndex ks x).isSome := by
  intro ks
  induction ks with
  | nil => intro h; cases h
  | cons a t ih =>
    intro h
    simp only [pyIndex]
    by_cases he : a = x
    · simp [he]
    · simp only [he, if_false]
      have hmem : x ∈ t := by
        cases h with
        | head => exact absurd rfl he
        | tail _ h2 => exact h2
      have hs := ih hmem
      cases e : pyIndex t x with
      | none =>
        rw [e] at hs
        simp at hs
      | some i => rfl

theorem pyIndex_eq_none_of_not_mem (x : Str) :
    ∀ ks : List Str, x ∉ ks → pyIndex ks x = none := by
  intro ks
  induction ks with
  | nil => intro _; rfl
  | cons a t ih =>
    intro h
    simp only [pyIndex]
    have he : a ≠ x := fun hax => h (hax ▸ List.mem_cons_self a t)
    simp only [he, if_false]
    rw [ih (fun hx => h (List.mem_cons_of_mem a hx))]
    rfl

theorem pyIndex_lt_length (x : Str) :
    ∀ (ks : List Str) (i : Nat), pyIndex ks x = some i → i < ks.length := by
  intro ks
  induction ks with
  | nil => intro i h; cases h
  | cons a t ih =>
    intro i h
    simp only [pyIndex] at h
    by_cases he : a = x
    · simp only [he, if_true, Option.some.injEq] at h
      subst h
      simp
    · simp only [he, if_false] at h
      cases e : pyIndex t x with
      | none => rw [e] at h; cases h
      | some j =>
        rw [e] at h
        simp only [Option.map_some', Option.some.injEq] at h
        have := ih j e
        simp only [List.length_cons]
        omega

theorem soVal_le_length (bk : List Str) (x : Str) : soVal bk x ≤ bk.length := by
  simp only [soVal]
  cases e : pyIndex bk x with
  | none => exact Nat.le_refl _
  | some i => exact Nat.le_of_lt (pyIndex_lt_length x bk i e)

theorem soVal_base (bk : List Str) (hn : bk.Nodup) :
    bk.map (soVal bk) = List.range bk.length := by
  induction bk with
  | nil => rfl
  | cons a t ih =>
    simp only [List.map_cons, List.length_cons]
    have h0 : soVal (a :: t) a = 0 := by
      simp [soVal, pyIndex]
    have hna : a ∉ t := (List.nodup_cons.mp hn).1
    have hnt : t.Nodup := (List.nodup_cons.mp hn).2
    have hmap : t.map (soVal (a :: t)) = (t.map (soVal t)).map (· + 1) := by
      rw [List.map_map]
      apply List.map_congr_left
      intro x hx
      have hax : a ≠ x := fun hax => hna (hax ▸ hx)
      simp only [Function.comp, soVal, pyIndex, hax, if_false]
      have hsome := pyIndex_isSome_of_mem x t hx
      cases e : pyIndex t x with
      | none => rw [e] at hsome; cases hsome
      | some i => simp [e]
    rw [h0, hmap, ih hnt, List.range_succ_eq_map]

theorem soVal_extra (bk : List Str) (k : Str) (h : k ∉ bk) :
    soVal bk k = bk.length := by
  simp [soVal, pyIndex_eq_none_of_not_mem k bk h]

theorem pairwise_le_of_const (f : Str → Nat) (c : Nat) :
    ∀ l : List Str, (∀ x ∈ l, f x = c) →
      List.Pairwise (fun x y => f x ≤ f y) l := by
  intro l
  induction l with
  | nil => intro _; exact List.Pairwise.nil
  | cons a t ih =>
    intro h
    refine List.Pairwise.cons ?_ (ih fun x hx => h x (List.mem_cons_of_mem a hx))
    intro y hy
    rw [h a (List.mem_cons_self a t), h y (List.mem_cons_of_mem a hy)]

/-- A sorted permutation of `A ++ B`, where the rank is strictly
increasing along `A`, constant `N` on `B`, and below `N` on `A`, is
forced to start with `A` itself, followed by some permutation of `B`. -/
theorem sorted_perm_split (f : JRow → Nat) :
    ∀ A : List JRow, List.Pairwise (fun a c => f a < f c) A →
    ∀ (B l : List JRow) (N : Nat), (∀ b ∈ B, f b = N) → (∀ a ∈ A, f a < N) →
      l.Perm (A ++ B) → List.Pairwise (fun a c => f a ≤ f c) l →
      ∃ t, l = A ++ t ∧ t.Perm B := by
  intro A
  induction A with
  | nil =>
    intro _ B l N _ _ hperm _
    exact ⟨l, rfl, by simpa using hperm⟩
  | cons a A2 ih =>
    intro hA B l N hB hAN hperm hsort
    cases l with
    | nil =>
      exfalso
      have ha : a ∈ ([] : List JRow) :=
        hperm.symm.subset (List.mem_append_left B (List.mem_cons_self a A2))
      cases ha
    | cons x l2 =>
      have hApw := List.pairwise_cons.mp hA
      have hspw := List.pairwise_cons.mp hsort
      have hxa : x = a := by
        have hxmem : x ∈ (a :: A2) ++ B := hperm.subset (List.mem_cons_self x l2)
        rw [List.cons_append, List.mem_cons] at hxmem
        rcases hxmem with h | h
        · exact h
        · exfalso
          have hfx : f a < f x := by
            rcases List.mem_append.mp h with h2 | h2
            · exact hApw.1 x h2
            · rw [hB x h2]
              exact hAN a (List.mem_cons_self a A2)
          have hamem : a ∈ x :: l2 :=
            hperm.symm.subset (List.mem_append_left B (List.mem_cons_self a A2))
          rcases List.mem_cons.mp hamem with h3 | h3
          · rw [h3] at hfx
            omega
          · have := hspw.1 a h3
            omega
      subst hxa
      have hperm2 : l2.Perm (A2 ++ B) := by
        rw [List.cons_append] at hperm
        exact hperm.cons_inv
      obtain ⟨t, hteq, htp⟩ := ih hApw.2 B l2 N hB
        (fun a2 ha2 => hAN a2 (List.mem_cons_of_mem x ha2)) hperm2 hspw.2
      exact ⟨t, by rw [List.cons_append, hteq], htp⟩

/-- C9 (amended): the merged table's rows begin with the baseline
locale's keys in baseline order; the keys that appear only in later
locales come after all baseline keys, but — since they all share
`sort_order = len(zh_cn_keys)` and the default `sort_values` quicksort is
not stable — only as some permutation of the discovery order, which the
stable refinement realizes exactly. -/
theorem claim9_flat_merge_order (base : List (Str × Str))
    (others : List (Str × List (Str × Str)))
    (hn : (base.map Prod.fst).Nodup) :
    (∀ res : List JRow,
      sortValuesOut (base.map Prod.fst) (json_to_excel_presort base others) res →
      ∃ t, res.map JRow.key = base.map Prod.fst ++ t ∧
        t.Perm (specNewKeys (base.map Prod.fst) others)) ∧
    (json_to_excel_merge base others).map JRow.key =
      base.map Prod.fst ++ specNewKeys (base.map Prod.fst) others := by
  set bk := base.map Prod.fst with hbk
  set rows0 : List JRow := base.map fun p => ⟨p.1, [("zh_cn".data, some p.2)]⟩ with hrows0
  set rows1 := others.foldl (fun rs p => outerMerge rs p.1 p.2) rows0 with hrows1
  have hr0keys : rows0.map JRow.key = bk := by
    rw [hrows0, List.map_map, hbk]
    apply List.map_congr_left
    intro p _
    rfl
  have hkeys : rows1.map JRow.key = bk ++ specNewKeys bk others := by
    rw [hrows1, mergeFold_keys others rows0, hr0keys]
  have hmissing : ((bk ++ (others.map fun p => p.2.map Prod.fst).join).filter
      fun k => !(rows1.any fun r => r.key == k)) = [] := by
    apply List.filter_eq_nil.mpr
    intro k hk
    rw [any_key_beq]
    have hmem : k ∈ rows1.map JRow.key := by
      rw [hkeys]
      rcases List.mem_append.mp hk with h1 | h1
      · exact List.mem_append_left _ h1
      · simp only [List.mem_join, List.mem_map] at h1
        obtain ⟨ks, ⟨p, hp, rfl⟩, hkp⟩ := h1
        exact mem_fold_keys others bk k p hp hkp
    simp [hmem]
  have hpre : json_to_excel_presort base others = rows1 := by
    show rows1 ++ (((bk ++ (others.map fun p => p.2.map Prod.fst).join).filter
        fun k => !(rows1.any fun r => r.key == k)).map
          fun k => ⟨k, [("zh_cn".data, none)]⟩) = rows1
    rw [hmissing]
    simp
  constructor
  · intro res hout
    obtain ⟨hperm, hsort⟩ := hout
    rw [hpre] at hperm
    have hAB : rows1 = rows1.take bk.length ++ rows1.drop bk.length :=
      (List.take_append_drop bk.length rows1).symm
    have hAkeys : (rows1.take bk.length).map JRow.key = bk := by
      rw [List.map_take, hkeys]
      exact List.take_left bk _
    have hBkeys : (rows1.drop bk.length).map JRow.key = specNewKeys bk others := by
      rw [List.map_drop, hkeys]
      exact List.drop_left bk _
    have hAmap : ((rows1.take bk.length).map fun r => soVal bk r.key) =
        List.range bk.length := by
      rw [show ((rows1.take bk.length).map fun r => soVal bk r.key) =
          ((rows1.take bk.length).map JRow.key).map (soVal bk) by
        rw [List.map_map]
        rfl]
      rw [hAkeys]
      exact soVal_base bk hn
    have hApw : List.Pairwise (fun a c : JRow => soVal bk a.key < soVal bk c.key)
        (rows1.take bk.length) := by
      have h1 : List.Pairwise (· < ·)
          ((rows1.take bk.length).map fun r => soVal bk r.key) := by
        rw [hAmap]
        exact List.pairwise_lt_range _
      exact List.pairwise_map.mp h1
    have hBval : ∀ b ∈ rows1.drop bk.length, soVal bk b.key = bk.length := by
      intro b hb
      have hbk2 : b.key ∈ specNewKeys bk others := by
        rw [← hBkeys]
        exact List.mem_map.mpr ⟨b, hb, rfl⟩
      exact soVal_extra bk b.key (specNewKeys_not_seen others bk b.key hbk2)
    have hAval : ∀ a ∈ rows1.take bk.length, soVal bk a.key < bk.length := by
      intro a ha
      have hmem : soVal bk a.key ∈
          ((rows1.take bk.length).map fun r => soVal bk r.key) :=
        List.mem_map.mpr ⟨a, ha, rfl⟩
      rw [hAmap] at hmem
      exact List.mem_range.mp hmem
    rw [hAB] at hperm
    obtain ⟨t, hteq, htp⟩ := sorted_perm_split (fun r => soVal bk r.key)
      (rows1.take bk.length) hApw (rows1.drop bk.length) res bk.length
      hBval hAval hperm hsort
    refine ⟨t.map JRow.key, ?_, ?_⟩
    · rw [hteq, List.map_append, hAkeys]
    · rw [← hBkeys]
      exact htp.map JRow.key
  · have hsorted : List.Sorted
        (fun a c : JRow => soVal bk a.key ≤ soVal bk c.key) rows1 := by
      have hpw : List.Pairwise (fun x y : Str => soVal bk x ≤ soVal bk y)
          (rows1.map JRow.key) := by
        rw [hkeys]
        apply List.pairwise_append.mpr
        refine ⟨?_, ?_, ?_⟩
        · have h1 : List.Pairwise (· ≤ ·) (bk.map (soVal bk)) := by
            rw [soVal_base bk hn]
            exact (List.pairwise_lt_range _).imp Nat.le_of_lt
          exact List.pairwise_map.mp h1
        · exact pairwise_le_of_const (soVal bk) bk.length _
            fun x hx => soVal_extra bk x (specNewKeys_not_seen others bk x hx)
        · intro x _ y hy
          rw [soVal_extra bk y (specNewKeys_not_seen others bk y hy)]
          exact soVal_le_length bk x
      exact List.Pairwise.of_map JRow.key (fun a b h => h) hpw
    have hunfold : json_to_excel_merge base others =
        List.insertionSort (fun a c : JRow => soVal bk a.key ≤ soVal bk c.key)
          (json_to_excel_presort base others) := rfl
    rw [hunfold, hpre]
    rw [List.Sorted.insertionSort_eq hsorted, hkeys]

instance instSoValTotal (bk : List Str) :
    IsTotal JRow fun a c => soVal bk a.key ≤ soVal bk c.key :=
  ⟨fun a c => Nat.le_total _ _⟩

instance instSoValTrans (bk : List Str) :
    IsTrans JRow fun a c => soVal bk a.key ≤ soVal bk c.key :=
  ⟨fun _ _ _ h1 h2 => Nat.le_trans h1 h2⟩

/-- The swapped-tail sort output of the C9 counterexample. -/
def resC9cex : List JRow :=
  [⟨"a".data, [("zh_cn".data, some "1".data), ("en".data, none)]⟩,
   ⟨"c".data, [("en".data, some "y".data)]⟩,
   ⟨"b".data, [("en".data, some "x".data)]⟩]

/-- C9 counterexample: with baseline `[a]` and a later locale defining
`b` then `c` (discovery order `[b, c]`), the rows `b` and `c` tie on
`sort_order = 1`, so the output with tail `[c, b]` is an admissible
`sort_values` result — a permutation of the merged rows ascending in
`sort_order` — and its key column is not the claimed discovery order. -/
theorem claim9_counterexample :
    sortValuesOut ([("a".data, "1".data)].map Prod.fst)
      (json_to_excel_presort [("a".data, "1".data)]
        [("en".data, [("b".data, "x".data), ("c".data, "y".data)])]) resC9cex ∧
    resC9cex.map JRow.key ≠
      [("a".data, "1".data)].map Prod.fst ++
        specNewKeys ([("a".data, "1".data)].map Prod.fst)
          [("en".data, [("b".data, "x".data), ("c".data, "y".data)])] := by
  refine ⟨⟨?_, ?_⟩, ?_⟩
  · decide
  · decide
  · decide

/-- Witness for C9: baseline `[a, b]`, one later locale defining `b` and
the new key `c`; the stable output is itself an admissible sort output,
so both parts of the theorem apply to it. -/
theorem claim9_witness :
    (([("a".data, "1".data), ("b".data, "2".data)].map Prod.fst).Nodup) ∧
    (∃ t, (json_to_excel_merge [("a".data, "1".data), ("b".data, "2".data)]
        [("en".data, [("b".data, "x".data), ("c".data, "y".data)])]).map JRow.key =
        [("a".data, "1".data), ("b".data, "2".data)].map Prod.fst ++ t ∧
      t.Perm (specNewKeys ([("a".data, "1".data), ("b".data, "2".data)].map Prod.fst)
        [("en".data, [("b".data, "x".data), ("c".data, "y".data)])])) ∧
    (json_to_excel_merge [("a".data, "1".data), ("b".data, "2".data)]
        [("en".data, [("b".data, "x".data), ("c".data, "y".data)])]).map JRow.key =
      [("a".data, "1".data), ("b".data, "2".data)].map Prod.fst ++
        specNewKeys ([("a".data, "1".data), ("b".data, "2".data)].map Prod.fst)
          [("en".data, [("b".data, "x".data), ("c".data, "y".data)])] :=
  ⟨by decide,
    (claim9_flat_merge_order [("a".data, "1".data), ("b".data, "2".data)]
      [("en".data, [("b".data, "x".data), ("c".data, "y".data)])] (by decide)).1
      (json_to_excel_merge [("a".data, "1".data), ("b".data, "2".data)]
        [("en".data, [("b".data, "x".data), ("c".data, "y".data)])])
      ⟨List.perm_insertionSort _ _, List.sorted_insertionSort _ _⟩,
    (claim9_flat_merge_order [("a".data, "1".data), ("b".data, "2".data)]
      [("en".data, [("b".data, "x".data), ("c".data, "y".data)])] (by decide)).2⟩

/-! ## Round trip (claims C2 and C6)

`content.replace('export default', '')` removes every occurrence of the
marker, so the round-trip argument needs that the serialized text past
the leading marker contains no further occurrence.  `noOcc pat s` states
that no suffix of `s` starts with `pat`; it is propagated over `++` with
an explicit condition at the seam. -/

def exportPat : Str := "export default".data

/-- No suffix of `s` starts with `pat`. -/
def noOcc (pat : Str) : Str → Bool
  | [] => true
  | c :: t => !(pat.isPrefixOf (c :: t)) && noOcc pat t

/-- Occurrences spanning the seam of `a ++ b` are excluded: no short
non-empty suffix of `a` that is a prefix of `pat` continues into `b`. -/
def CrossOk (pat a b : Str) : Prop :=
  ∀ u : Str, u <:+ a → u ≠ [] → u.length < pat.length → u <+: pat →
    ¬ ((pat.drop u.length) <+: b)

/-- No non-empty suffix of `a` is a prefix of `pat` at all. -/
def SuffixSafe (pat a : Str) : Prop := ∀ u, u <:+ a → u ≠ [] → ¬ u <+: pat

/-- Decidable check for `SuffixSafe` on concrete strings. -/
def suffixSafeB (pat : Str) : Str → Bool
  | [] => true
  | c :: t => !((c :: t).isPrefixOf pat) && suffixSafeB pat t

theorem suffixSafe_of_B (pat : Str) :
    ∀ a : Str, suffixSafeB pat a = true → SuffixSafe pat a := by
  intro a
  induction a with
  | nil =>
    intro _ u hu hne
    rw [List.suffix_nil.mp hu] at hne
    exact absurd rfl hne
  | cons c t ih =>
    intro h u hu hne
    simp only [suffixSafeB, Bool.and_eq_true, Bool.not_eq_true'] at h
    rcases List.suffix_cons_iff.mp hu with h1 | h1
    · subst h1
      intro hp
      rw [(List.isPrefixOf_iff_prefix).mpr hp] at h
      exact Bool.noConfusion h.1
    · exact ih h.2 u h1 hne

theorem crossOk_of_safe (pat a b : Str) (hs : SuffixSafe pat a) : CrossOk pat a b :=
  fun u h1 h2 _ h4 _ => hs u h1 h2 h4

theorem crossOk_of_head (pat a b : Str) (c : Char) (hh : b.head? = some c)
    (hc : c ∉ pat) : CrossOk pat a b := by
  intro u _ _ hlen _ hdrop
  cases e : pat.drop u.length with
  | nil =>
    have := congrArg List.length e
    simp only [List.length_drop, List.length_nil] at this
    omega
  | cons d ds =>
    obtain ⟨w, hw⟩ := hdrop
    rw [e] at hw
    have hd : d ∈ pat := List.drop_subset u.length pat (by rw [e]; exact List.mem_cons_self d ds)
    rw [← hw] at hh
    simp only [List.cons_append, List.head?_cons, Option.some.injEq] at hh
    exact hc (hh ▸ hd)

theorem crossOk_of_getLast (pat a b : Str) (c : Char) (hl : a.getLast? = some c)
    (hc : c ∉ pat) : CrossOk pat a b := by
  intro u hu hne _ hpref _
  obtain ⟨w, hw⟩ := hu
  have hlast : u.getLast? = some c := by
    rw [← hl, ← hw]
    exact (List.getLast?_append_of_ne_nil w hne).symm
  have hmem : c ∈ u := by
    cases e : u.getLast? with
    | none => rw [e] at hlast; cases hlast
    | some d =>
      rw [e] at hlast
      cases hlast
      exact List.mem_of_mem_getLast? e
  exact hc (hpref.subset hmem)

theorem noOcc_short (pat : Str) :
    ∀ s : Str, s.length < pat.length → noOcc pat s = true := by
  intro s
  induction s with
  | nil => intro _; rfl
  | cons c t ih =>
    intro h
    simp only [noOcc, Bool.and_eq_true, Bool.not_eq_true']
    constructor
    · by_cases hp : pat.isPrefixOf (c :: t)
      · have := (List.isPrefixOf_iff_prefix.mp hp).length_le
        omega
      · exact Bool.eq_false_iff.mpr hp
    · exact ih (by simp only [List.length_cons] at h; omega)

theorem noOcc_of_missing (pat : Str) (c : Char) (hcp : c ∈ pat) :
    ∀ s : Str, c ∉ s → noOcc pat s = true := by
  intro s
  induction s with
  | nil => intro _; rfl
  | cons d t ih =>
    intro h
    simp only [noOcc, Bool.and_eq_true, Bool.not_eq_true']
    constructor
    · by_cases hp : pat.isPrefixOf (d :: t)
      · exact absurd ((List.isPrefixOf_iff_prefix.mp hp).subset hcp) h
      · exact Bool.eq_false_iff.mpr hp
    · exact ih fun hm => h (List.mem_cons_of_mem d hm)

theorem noOcc_append (pat : Str) :
    ∀ (a b : Str), noOcc pat a = true → noOcc pat b = true → CrossOk pat a b →
      noOcc pat (a ++ b) = true := by
  intro a
  induction a with
  | nil => intro b _ hb _; simpa using hb
  | cons c a' ih =>
    intro b ha hb hc
    simp only [noOcc, Bool.and_eq_true, Bool.not_eq_true'] at ha
    simp only [List.cons_append, noOcc, Bool.and_eq_true, Bool.not_eq_true']
    have hcross' : CrossOk pat a' b := by
      intro u h1 h2 h3 h4
      exact hc u (h1.trans (List.suffix_cons c a')) h2 h3 h4
    refine ⟨?_, ih b ha.2 hb hcross'⟩
    by_cases hp : pat.isPrefixOf (c :: a' ++ b)
    · exfalso
      have hpp : pat <+: (c :: a') ++ b :=
        List.isPrefixOf_iff_prefix.mp hp
      by_cases hlen : pat.length ≤ (c :: a').length
      · have h2 : pat <+: c :: a' :=
          List.prefix_of_prefix_length_le hpp (List.prefix_append _ _) hlen
        rw [List.isPrefixOf_iff_prefix.mpr h2] at ha
        exact Bool.noConfusion ha.1
      · push_neg at hlen
        have hu : (c :: a') <+: pat :=
          List.prefix_of_prefix_length_le (List.prefix_append _ _) hpp
            (Nat.le_of_lt hlen)
        have heq : (c :: a') ++ pat.drop (c :: a').length = pat :=
          List.prefix_iff_eq_append.mp hu
        have hdrop : pat.drop (c :: a').length <+: b := by
          have h3 : (c :: a') ++ pat.drop (c :: a').length <+: (c :: a') ++ b := by
            rw [heq]
            exact hpp
          exact (List.prefix_append_right_inj (c :: a')).mp h3
        exact hc (c :: a') (List.suffix_refl _) (List.cons_ne_nil c a') hlen hu hdrop
    · exact Bool.eq_false_iff.mpr hp

/-! ### Well-formedness of a document for the round trip -/

/-- A usable group name: non-empty, word characters only. -/
def wordStr (s : Str) : Bool := !s.isEmpty && s.all isWordChar

/-- A usable entry key: non-empty, word characters or dots. -/
def keyStr (s : Str) : Bool := !s.isEmpty && s.all fun c => isWordChar c || c = '.'

/-- A value character the codec transports untouched: no quotes, no
braces, no slash (comment marker). -/
def benignChar (c : Char) : Bool :=
  !(c = squote || c = dquote || c = lbrace || c = rbrace || c = '/')

/-- A usable value: benign characters, and no occurrence of the
`export default` marker (which `str.replace` would delete). -/
def valStr (s : Str) : Bool := s.all benignChar && noOcc exportPat s

/-- Round-trip well-formedness of a flat (depth-2) document. -/
def docWf (D : List (Str × List (Str × Str))) : Bool :=
  D.all fun g => wordStr g.1 && g.2.all fun e => keyStr e.1 && valStr e.2

/-- A flat document as the generator's input. -/
def toJDoc (D : List (Str × List (Str × Str))) : List (Str × List (Str × JValue)) :=
  D.map fun p => (p.1, p.2.map fun q => (q.1, .str q.2))

/-- One serialized entry line of `generate_nested_content` at indent 2. -/
def entryLine (k v : Str) : Str :=
  [' ', ' ', ' ', ' '] ++ (k ++ ([':', ' ', squote] ++ (v ++ [squote, ',', '\n'])))

/-- One serialized group of `generate_js_files`. -/
def groupBlob (g : Str) (es : List (Str × Str)) : Str :=
  [' ', ' '] ++ (g ++ ([':', ' ', lbrace, '\n'] ++
    ((es.map fun e => entryLine e.1 e.2).flatten ++ [' ', ' ', rbrace, ',', '\n'])))

theorem getLast?_append_right {c : Char} (l1 l2 : Str) (h : l2.getLast? = some c) :
    (l1 ++ l2).getLast? = some c := by
  have hne : l2 ≠ [] := by
    intro e
    rw [e] at h
    cases h
  rw [List.getLast?_append_of_ne_nil l1 hne]
  exact h

theorem entryLine_getLast (k v : Str) : (entryLine k v).getLast? = some '\n' := by
  unfold entryLine
  exact getLast?_append_right _ _ (getLast?_append_right _ _
    (getLast?_append_right _ _ (getLast?_append_right _ _ rfl)))

theorem groupBlob_getLast (g : Str) (es : List (Str × Str)) :
    (groupBlob g es).getLast? = some '\n' := by
  unfold groupBlob
  exact getLast?_append_right _ _ (getLast?_append_right _ _
    (getLast?_append_right _ _ (getLast?_append_right _ _ rfl)))

theorem keyStr_no_space {k : Str} (h : keyStr k = true) : ' ' ∉ k := by
  simp only [keyStr, Bool.and_eq_true, List.all_eq_true] at h
  intro hm
  have := h.2 ' ' hm
  simp [isWordChar] at this

theorem wordStr_no_space {k : Str} (h : wordStr k = true) : ' ' ∉ k := by
  simp only [wordStr, Bool.and_eq_true, List.all_eq_true] at h
  intro hm
  have := h.2 ' ' hm
  simp [isWordChar] at this

theorem noOcc_entryLine (k v : Str) (hk : keyStr k = true) (hv : valStr v = true) :
    noOcc exportPat (entryLine k v) = true := by
  have hvno : noOcc exportPat v = true := by
    simp only [valStr, Bool.and_eq_true] at hv
    exact hv.2
  unfold entryLine
  apply noOcc_append
  · exact noOcc_short _ _ (by decide)
  · apply noOcc_append
    · exact noOcc_of_missing exportPat ' ' (by decide) k (keyStr_no_space hk)
    · apply noOcc_append
      · exact noOcc_short _ _ (by decide)
      · apply noOcc_append
        · exact hvno
        · exact noOcc_short _ _ (by decide)
        · exact crossOk_of_head _ _ _ squote rfl (by decide)
      · exact crossOk_of_safe _ _ _ (suffixSafe_of_B _ _ (by decide))
    · exact crossOk_of_head _ _ _ ':' rfl (by decide)
  · exact crossOk_of_safe _ _ _ (suffixSafe_of_B _ _ (by decide))

theorem crossOk_nil (pat b : Str) : CrossOk pat [] b := by
  intro u hu hne
  rw [List.suffix_nil.mp hu] at hne
  exact absurd rfl hne

theorem noOcc_lines (es : List (Str × Str))
    (h : ∀ e ∈ es, keyStr e.1 = true ∧ valStr e.2 = true) :
    noOcc exportPat (es.map fun e => entryLine e.1 e.2).flatten = true ∧
    ((es.map fun e => entryLine e.1 e.2).flatten = [] ∨
      ((es.map fun e => entryLine e.1 e.2).flatten).getLast? = some '\n') := by
  induction es with
  | nil => exact ⟨rfl, Or.inl rfl⟩
  | cons e t ih =>
    obtain ⟨ihn, ihl⟩ := ih fun x hx => h x (List.mem_cons_of_mem e hx)
    have he := h e (List.mem_cons_self e t)
    constructor
    · simp only [List.map_cons, List.flatten_cons]
      apply noOcc_append
      · exact noOcc_entryLine e.1 e.2 he.1 he.2
      · exact ihn
      · exact crossOk_of_getLast _ _ _ '\n' (entryLine_getLast e.1 e.2) (by decide)
    · simp only [List.map_cons, List.flatten_cons]
      cases ihl with
      | inl hnil =>
        rw [hnil, List.append_nil]
        exact Or.inr (entryLine_getLast e.1 e.2)
      | inr hl => exact Or.inr (getLast?_append_right _ _ hl)

theorem noOcc_groupBlob (g : Str) (es : List (Str × Str)) (hg : wordStr g = true)
    (h : ∀ e ∈ es, keyStr e.1 = true ∧ valStr e.2 = true) :
    noOcc exportPat (groupBlob g es) = true := by
  obtain ⟨hln, hll⟩ := noOcc_lines es h
  unfold groupBlob
  apply noOcc_append
  · exact noOcc_short _ _ (by decide)
  · apply noOcc_append
    · exact noOcc_of_missing exportPat ' ' (by decide) g (wordStr_no_space hg)
    · apply noOcc_append
      · exact noOcc_short _ _ (by decide)
      · apply noOcc_append
        · exact hln
        · exact noOcc_short _ _ (by decide)
        · cases hll with
          | inl hnil => rw [hnil]; exact crossOk_nil _ _
          | inr hl => exact crossOk_of_getLast _ _ _ '\n' hl (by decide)
      · exact crossOk_of_getLast _ _ _ '\n' rfl (by decide)
    · exact crossOk_of_head _ _ _ ':' rfl (by decide)
  · exact crossOk_of_safe _ _ _ (suffixSafe_of_B _ _ (by decide))

theorem noOcc_blobs (D : List (Str × List (Str × Str))) (hwf : docWf D = true) :
    noOcc exportPat (D.map fun p => groupBlob p.1 p.2).flatten = true ∧
    ((D.map fun p => groupBlob p.1 p.2).flatten = [] ∨
      ((D.map fun p => groupBlob p.1 p.2).flatten).getLast? = some '\n') := by
  induction D with
  | nil => exact ⟨rfl, Or.inl rfl⟩
  | cons p t ih =>
    simp only [docWf, List.all_cons, Bool.and_eq_true] at hwf
    have hg : wordStr p.1 = true := hwf.1.1
    have hes : ∀ e ∈ p.2, keyStr e.1 = true ∧ valStr e.2 = true := by
      intro e he
      have := hwf.1.2
      simp only [List.all_eq_true] at this
      have h2 := this e he
      simpa [Bool.and_eq_true] using h2
    obtain ⟨ihn, ihl⟩ := ih hwf.2
    constructor
    · simp only [List.map_cons, List.flatten_cons]
      apply noOcc_append
      · exact noOcc_groupBlob p.1 p.2 hg hes
      · exact ihn
      · exact crossOk_of_getLast _ _ _ '\n' (groupBlob_getLast p.1 p.2) (by decide)
    · simp only [List.map_cons, List.flatten_cons]
      cases ihl with
      | inl hnil =>
        rw [hnil, List.append_nil]
        exact Or.inr (groupBlob_getLast p.1 p.2)
      | inr hl => exact Or.inr (getLast?_append_right _ _ hl)

/-- The serialized suffix after the `export default` marker. -/
def genRest (D : List (Str × List (Str × Str))) : Str :=
  [' ', lbrace, '\n'] ++ ((D.map fun p => groupBlob p.1 p.2).flatten ++ [rbrace, ';'])

theorem noOcc_genRest (D : List (Str × List (Str × Str))) (hwf : docWf D = true) :
    noOcc exportPat (genRest D) = true := by
  obtain ⟨hn, _⟩ := noOcc_blobs D hwf
  unfold genRest
  apply noOcc_append
  · exact noOcc_short _ _ (by decide)
  · apply noOcc_append
    · exact hn
    · exact noOcc_short _ _ (by decide)
    · exact crossOk_of_head _ _ _ rbrace rfl (by decide)
  · exact crossOk_of_getLast _ _ _ '\n' rfl (by decide)

/-! ### Scan helpers for the round-trip argument -/

theorem dropWhile_of_head {p : Char → Bool} {l : Str} {c : Char}
    (h : l.head? = some c) (hc : p c = false) : l.dropWhile p = l := by
  cases l with
  | nil => rfl
  | cons a t =>
    simp only [List.head?_cons, Option.some.injEq] at h
    subst h
    rw [List.dropWhile_cons, if_neg]
    rw [hc]
    exact Bool.false_ne_true

theorem dropWhile_append_all {p : Char → Bool} :
    ∀ (a b : Str), (∀ c ∈ a, p c = true) → (a ++ b).dropWhile p = b.dropWhile p := by
  intro a
  induction a with
  | nil => intro b _; rfl
  | cons x a' ih =>
    intro b h
    rw [List.cons_append, List.dropWhile_cons, if_pos (h x (List.mem_cons_self x a'))]
    exact ih b fun c hc => h c (List.mem_cons_of_mem x hc)

theorem dropWhile_all_pos {p : Char → Bool} :
    ∀ l : Str, (∀ c ∈ l, p c = true) → l.dropWhile p = [] := by
  intro l
  induction l with
  | nil => intro _; rfl
  | cons x t ih =>
    intro h
    rw [List.dropWhile_cons, if_pos (h x (List.mem_cons_self x t))]
    exact ih fun c hc => h c (List.mem_cons_of_mem x hc)

theorem takeWhile_middle {p : Char → Bool} {d : Char} (hd : p d = false) :
    ∀ (a b : Str), (∀ c ∈ a, p c = true) → (a ++ d :: b).takeWhile p = a := by
  intro a
  induction a with
  | nil =>
    intro b _
    rw [List.nil_append, List.takeWhile_cons, if_neg]
    rw [hd]
    exact Bool.false_ne_true
  | cons x a' ih =>
    intro b h
    rw [List.cons_append, List.takeWhile_cons, if_pos (h x (List.mem_cons_self x a'))]
    rw [ih b fun c hc => h c (List.mem_cons_of_mem x hc)]

theorem dropWhile_middle {p : Char → Bool} {d : Char} (hd : p d = false) :
    ∀ (a b : Str), (∀ c ∈ a, p c = true) → (a ++ d :: b).dropWhile p = d :: b := by
  intro a b h
  rw [dropWhile_append_all a (d :: b) h, List.dropWhile_cons, if_neg]
  rw [hd]
  exact Bool.false_ne_true

/-! ### Character-class facts -/

theorem wordDot_facts {c : Char} (h : (isWordChar c || c = '.') = true) :
    pyIsSpace c = false ∧ c ≠ ':' ∧ c ≠ ',' ∧ c ≠ lbrace ∧ c ≠ rbrace ∧
    c ≠ '/' ∧ isQuote c = false := by
  refine ⟨?_, ?_, ?_, ?_, ?_, ?_, ?_⟩
  · by_cases hs : pyIsSpace c = true
    · exfalso
      simp only [pyIsSpace, Bool.or_eq_true, decide_eq_true_eq] at hs
      rcases hs with ((((h1 | h1) | h1) | h1) | h1) | h1 <;>
        (subst h1; exact absurd h (by decide))
    · exact Bool.eq_false_iff.mpr hs
  · intro h1; subst h1; exact absurd h (by decide)
  · intro h1; subst h1; exact absurd h (by decide)
  · intro h1; subst h1; exact absurd h (by decide)
  · intro h1; subst h1; exact absurd h (by decide)
  · intro h1; subst h1; exact absurd h (by decide)
  · by_cases hq : isQuote c = true
    · exfalso
      simp only [isQuote, Bool.or_eq_true, decide_eq_true_eq] at hq
      rcases hq with h1 | h1 <;> (subst h1; exact absurd h (by decide))
    · exact Bool.eq_false_iff.mpr hq

theorem word_facts {c : Char} (h : isWordChar c = true) :
    pyIsSpace c = false ∧ c ≠ ':' ∧ c ≠ ',' ∧ c ≠ lbrace ∧ c ≠ rbrace ∧
    c ≠ '/' ∧ isQuote c = false :=
  wordDot_facts (by rw [h]; rfl)

theorem space_facts {c : Char} (h : pyIsSpace c = true) :
    ¬(c = ',' ∨ c = lbrace ∨ c = rbrace) := by
  simp only [pyIsSpace, Bool.or_eq_true, decide_eq_true_eq] at h
  rcases h with ((((h1 | h1) | h1) | h1) | h1) | h1 <;> (subst h1; decide)

theorem benign_facts {c : Char} (h : benignChar c = true) :
    c ≠ lbrace ∧ c ≠ rbrace ∧ c ≠ '/' ∧ isQuote c = false := by
  simp only [benignChar, Bool.not_eq_true', Bool.or_eq_false_iff,
    decide_eq_false_iff_not] at h
  obtain ⟨⟨⟨⟨hsq, hdq⟩, hlb⟩, hrb⟩, hsl⟩ := h
  refine ⟨hlb, hrb, hsl, ?_⟩
  simp only [isQuote, Bool.or_eq_false_iff, decide_eq_false_iff_not]
  exact ⟨hsq, hdq⟩

theorem keyStr_facts {k : Str} (h : keyStr k = true) :
    k ≠ [] ∧ ∀ c ∈ k, (isWordChar c || c = '.') = true := by
  simp only [keyStr, Bool.and_eq_true, List.all_eq_true, Bool.not_eq_true',
    List.isEmpty_eq_false_iff_exists_mem] at h
  constructor
  · obtain ⟨x, hx⟩ := h.1
    intro e
    rw [e] at hx
    cases hx
  · exact h.2

theorem wordStr_facts {k : Str} (h : wordStr k = true) :
    k ≠ [] ∧ ∀ c ∈ k, isWordChar c = true := by
  simp only [wordStr, Bool.and_eq_true, List.all_eq_true, Bool.not_eq_true',
    List.isEmpty_eq_false_iff_exists_mem] at h
  constructor
  · obtain ⟨x, hx⟩ := h.1
    intro e
    rw [e] at hx
    cases hx
  · exact h.2

theorem valStr_facts {v : Str} (h : valStr v = true) :
    (∀ c ∈ v, benignChar c = true) ∧ noOcc exportPat v = true := by
  simp only [valStr, Bool.and_eq_true, List.all_eq_true] at h
  exact h

/-! ### The textual pipeline of `parse_js_file` on serialized output -/

theorem replaceAll_of_noOcc (pat r : Str) :
    ∀ s : Str, noOcc pat s = true → replaceAll pat r s = s := by
  intro s
  induction s with
  | nil => intro _; rfl
  | cons c t ih =>
    intro h
    simp only [noOcc, Bool.and_eq_true, Bool.not_eq_true'] at h
    rw [replaceAll_cons, if_neg, ih h.2]
    intro hcon
    rw [hcon.2] at h
    exact Bool.noConfusion h.1

theorem replaceAll_head (pat r R : Str) (c : Char) (t : Str) (hp : pat = c :: t) :
    replaceAll pat r (pat ++ R) = r ++ replaceAll pat r R := by
  subst hp
  rw [List.cons_append, replaceAll_cons, if_pos]
  · have hd : (c :: (t ++ R)).drop (c :: t).length = R := List.drop_left (c :: t) R
    rw [hd]
  · exact ⟨List.cons_ne_nil c t,
      List.isPrefixOf_iff_prefix.mpr (List.prefix_append (c :: t) R)⟩

theorem replaceAll_strip (R : Str) (h : noOcc exportPat R = true) :
    replaceAll exportPat [] (exportPat ++ R) = R := by
  rw [replaceAll_head exportPat [] R 'e' ("xport default".data) rfl]
  rw [replaceAll_of_noOcc exportPat [] R h]
  rfl

theorem stripCommentsF_id :
    ∀ (f : Nat) (s : Str), (∀ c ∈ s, c ≠ '/') → stripCommentsF f s = s := by
  intro f
  induction f with
  | zero => intro s _; rfl
  | succ f ih =>
    intro s h
    cases s with
    | nil => rfl
    | cons c t =>
      simp only [stripCommentsF]
      rw [if_neg, ih t fun x hx => h x (List.mem_cons_of_mem c hx)]
      intro hcon
      exact h c (List.mem_cons_self c t) hcon.1

theorem stripComments_id (s : Str) (h : ∀ c ∈ s, c ≠ '/') : stripComments s = s :=
  stripCommentsF_id s.length s h

theorem pyStrip_sandwich (wsF core wsB : Str) (ch cl : Char)
    (hF : ∀ c ∈ wsF, pyIsSpace c = true) (hB : ∀ c ∈ wsB, pyIsSpace c = true)
    (hh : core.head? = some ch) (hch : pyIsSpace ch = false)
    (hl : core.getLast? = some cl) (hcl : pyIsSpace cl = false) :
    pyStrip (wsF ++ (core ++ wsB)) = core := by
  unfold pyStrip
  rw [dropWhile_append_all wsF (core ++ wsB) hF]
  have hh2 : (core ++ wsB).head? = some ch := by
    cases core with
    | nil => cases hh
    | cons x t =>
      simp only [List.head?_cons, Option.some.injEq] at hh
      subst hh
      rfl
  rw [dropWhile_of_head hh2 hch, List.reverse_append]
  rw [dropWhile_append_all wsB.reverse core.reverse
    fun c hc => hB c (List.mem_reverse.mp hc)]
  rw [dropWhile_of_head (by rw [List.head?_reverse]; exact hl) hcl]
  exact List.reverse_reverse core

theorem pyStrip_all_space (s : Str) (h : ∀ c ∈ s, pyIsSpace c = true) :
    pyStrip s = [] := by
  unfold pyStrip
  rw [dropWhile_all_pos s h]
  rfl

/-! ### The serialized class body as the item scanner sees it -/

/-- The text following an entry key in a serialized line: colon, space,
quoted value, comma, and the rest. -/
def colonTail (v R : Str) : Str :=
  ':' :: (' ' :: (squote :: (v ++ (squote :: (',' :: R)))))

/-- The stripped serialized text of a list of entries: first key flush
left, entries separated by newline-plus-indent, ending in the comma of
the last entry (exactly `pyStrip` of the emitted lines). -/
def entriesTxt : List (Str × Str) → Str
  | [] => []
  | (k, v) :: t =>
    k ++ colonTail v
      (match t with
       | [] => []
       | _ :: _ => '\n' :: ([' ', ' ', ' ', ' '] ++ entriesTxt t))

theorem entriesTxt_cons_nil (k v : Str) : entriesTxt [(k, v)] = k ++ colonTail v [] := rfl

theorem entriesTxt_cons_cons (k v k2 v2 : Str) (t2 : List (Str × Str)) :
    entriesTxt ((k, v) :: (k2, v2) :: t2) =
      k ++ colonTail v ('\n' :: ([' ', ' ', ' ', ' '] ++ entriesTxt ((k2, v2) :: t2))) := rfl

theorem dropWhile_cons_neg {p : Char → Bool} (c : Char) (t : Str) (hc : p c = false) :
    (c :: t).dropWhile p = c :: t := by
  rw [List.dropWhile_cons, if_neg]
  rw [hc]
  exact Bool.false_ne_true

theorem itemTail_at_colon (v R : Str) (hv : ∀ c ∈ v, isQuote c = false) :
    itemTail (colonTail v R) = some (v, R) := by
  unfold itemTail colonTail
  rw [dropWhile_cons_neg ':' _ (by decide)]
  dsimp only
  rw [if_pos rfl]
  rw [List.dropWhile_cons, if_pos (by decide : pyIsSpace ' ' = true)]
  rw [dropWhile_cons_neg squote _ (by decide)]
  dsimp only
  rw [if_pos (by decide : isQuote squote = true)]
  have hv2 : ∀ c ∈ v, (!(isQuote c)) = true := by
    intro c hc
    rw [hv c hc]
    rfl
  rw [takeWhile_middle (by decide) v _ hv2, dropWhile_middle (by decide) v _ hv2]
  dsimp only
  rw [if_pos rfl]

theorem itemTail_fail_head (d : Char) (rest : Str) (hd1 : pyIsSpace d = false)
    (hd2 : d ≠ ':') : itemTail (d :: rest) = none := by
  unfold itemTail
  rw [dropWhile_cons_neg d rest hd1]
  dsimp only
  rw [if_neg hd2]

theorem itemTail_fail_ws (w : Str) (hw : ∀ c ∈ w, pyIsSpace c = true) (d : Char)
    (rest : Str) (hd1 : pyIsSpace d = false) (hd2 : d ≠ ':') :
    itemTail (w ++ d :: rest) = none := by
  unfold itemTail
  rw [dropWhile_middle hd1 w rest hw]
  dsimp only
  rw [if_neg hd2]

theorem itemTail_all_space (s : Str) (h : ∀ c ∈ s, pyIsSpace c = true) :
    itemTail s = none := by
  unfold itemTail
  rw [dropWhile_all_pos s h]

theorem itemKeyLoop_all_space :
    ∀ s : Str, (∀ c ∈ s, pyIsSpace c = true) → ∀ acc, itemKeyLoop acc s = none := by
  intro s
  induction s with
  | nil => intro _ _; rfl
  | cons c t ih =>
    intro h acc
    simp only [itemKeyLoop]
    rw [if_neg (space_facts (h c (List.mem_cons_self c t)))]
    rw [itemTail_all_space t fun x hx => h x (List.mem_cons_of_mem c hx)]
    exact ih (fun x hx => h x (List.mem_cons_of_mem c hx)) (acc ++ [c])

theorem itemKeyLoop_key (v R : Str) (hv : ∀ c ∈ v, isQuote c = false) :
    ∀ k : Str, k ≠ [] → (∀ c ∈ k, (isWordChar c || c = '.') = true) →
    ∀ acc, itemKeyLoop acc (k ++ colonTail v R) = some (acc ++ k, v, R) := by
  intro k
  induction k with
  | nil => intro h; exact absurd rfl h
  | cons kc k' ih =>
    intro _ hk acc
    have hkc := wordDot_facts (hk kc (List.mem_cons_self kc k'))
    rw [List.cons_append]
    simp only [itemKeyLoop]
    rw [if_neg (by
      intro hcon
      rcases hcon with h1 | h1 | h1
      · exact hkc.2.2.1 h1
      · exact hkc.2.2.2.1 h1
      · exact hkc.2.2.2.2.1 h1)]
    cases k' with
    | nil =>
      rw [List.nil_append, itemTail_at_colon v R hv]
    | cons c2 k'' =>
      have hc2 := wordDot_facts (hk c2 (List.mem_cons_of_mem kc (List.mem_cons_self c2 k'')))
      rw [List.cons_append, itemTail_fail_head c2 _ hc2.1 hc2.2.1]
      have h2 := ih (List.cons_ne_nil c2 k'')
        (fun c hc => hk c (List.mem_cons_of_mem kc hc)) (acc ++ [kc])
      rw [List.cons_append] at h2
      rw [h2]
      simp [List.append_assoc]

theorem itemKeyLoop_ws (v R : Str) (hv : ∀ c ∈ v, isQuote c = false)
    (kc : Char) (k' : Str) (hk : ∀ c ∈ kc :: k', (isWordChar c || c = '.') = true) :
    ∀ ws : Str, (∀ c ∈ ws, pyIsSpace c = true) → ∀ acc,
      itemKeyLoop acc (ws ++ ((kc :: k') ++ colonTail v R)) =
        some ((acc ++ ws) ++ (kc :: k'), v, R) := by
  intro ws
  induction ws with
  | nil =>
    intro _ acc
    rw [List.nil_append]
    rw [itemKeyLoop_key v R hv (kc :: k') (List.cons_ne_nil _ _) hk acc]
    simp
  | cons w ws' ih =>
    intro hws acc
    rw [List.cons_append]
    simp only [itemKeyLoop]
    rw [if_neg (space_facts (hws w (List.mem_cons_self w ws')))]
    have hkc := wordDot_facts (hk kc (List.mem_cons_self kc k'))
    have hfail : itemTail (ws' ++ ((kc :: k') ++ colonTail v R)) = none := by
      rw [List.cons_append]
      exact itemTail_fail_ws ws' (fun c hc => hws c (List.mem_cons_of_mem w hc))
        kc _ hkc.1 hkc.2.1
    rw [hfail]
    rw [ih (fun c hc => hws c (List.mem_cons_of_mem w hc)) (acc ++ [w])]
    simp [List.append_assoc]

theorem findItems_all_space :
    ∀ s : Str, (∀ c ∈ s, pyIsSpace c = true) → findItems s = [] := by
  intro s
  induction s with
  | nil => intro _; rfl
  | cons c t ih =>
    intro h
    rw [findItems_cons, itemKeyLoop_all_space (c :: t) h []]
    exact ih fun x hx => h x (List.mem_cons_of_mem c hx)

theorem findItems_of_itemKeyLoop {s k v rest : Str} (hs : s ≠ [])
    (h : itemKeyLoop [] s = some (k, v, rest)) :
    findItems s = (pyStrip k, v) :: findItems rest := by
  cases s with
  | nil => exact absurd rfl hs
  | cons c t => rw [findItems_cons, h]

theorem pyStrip_ws_word (ws k : Str) (hws : ∀ c ∈ ws, pyIsSpace c = true)
    (hk : ∀ c ∈ k, pyIsSpace c = false) (hk0 : k ≠ []) : pyStrip (ws ++ k) = k := by
  cases k with
  | nil => exact absurd rfl hk0
  | cons a b =>
    have hlast := List.getLast?_eq_getLast (a :: b) (List.cons_ne_nil a b)
    have := pyStrip_sandwich ws (a :: b) [] a ((a :: b).getLast (List.cons_ne_nil a b))
      hws (by intro c hc; cases hc) rfl (hk a (List.mem_cons_self a b)) hlast
      (hk _ (List.getLast_mem (List.cons_ne_nil a b)))
    rwa [List.append_nil] at this

theorem findItems_entries :
    ∀ es : List (Str × Str),
      (∀ e ∈ es, keyStr e.1 = true ∧ ∀ c ∈ e.2, isQuote c = false) →
      ∀ ws : Str, (∀ c ∈ ws, pyIsSpace c = true) →
        findItems (ws ++ entriesTxt es) = es := by
  intro es
  induction es with
  | nil =>
    intro _ ws hws
    show findItems (ws ++ []) = []
    rw [List.append_nil]
    exact findItems_all_space ws hws
  | cons e t ih =>
    intro hwf ws hws
    obtain ⟨k, v⟩ := e
    have he := hwf (k, v) (List.mem_cons_self _ _)
    obtain ⟨hk0, hkall⟩ := keyStr_facts he.1
    have hv : ∀ c ∈ v, isQuote c = false := he.2
    cases k with
    | nil => exact absurd rfl hk0
    | cons kc k' =>
      have hkns : ∀ c ∈ kc :: k', pyIsSpace c = false := by
        intro c hc
        exact (wordDot_facts (hkall c hc)).1
      cases t with
      | nil =>
        have hscan := itemKeyLoop_ws v [] hv kc k' hkall ws hws []
        have hne : ws ++ entriesTxt [(kc :: k', v)] ≠ [] := by
          rw [entriesTxt_cons_nil]
          intro hcon
          rcases List.append_eq_nil.mp hcon with ⟨_, h2⟩
          rcases List.append_eq_nil.mp h2 with ⟨h3, _⟩
          exact List.cons_ne_nil kc k' h3
        rw [findItems_of_itemKeyLoop hne (by rw [entriesTxt_cons_nil]; exact hscan)]
        rw [List.nil_append]
        rw [pyStrip_ws_word ws (kc :: k') hws hkns (List.cons_ne_nil kc k')]
        rfl
      | cons e2 t2 =>
        obtain ⟨k2, v2⟩ := e2
        have hR : ∀ c ∈ ('\n' :: ([' ', ' ', ' ', ' '] ++ entriesTxt ((k2, v2) :: t2))),
            True := fun _ _ => trivial
        have hscan := itemKeyLoop_ws v
          ('\n' :: ([' ', ' ', ' ', ' '] ++ entriesTxt ((k2, v2) :: t2)))
          hv kc k' hkall ws hws []
        have hne : ws ++ entriesTxt ((kc :: k', v) :: (k2, v2) :: t2) ≠ [] := by
          rw [entriesTxt_cons_cons]
          intro hcon
          rcases List.append_eq_nil.mp hcon with ⟨_, h2⟩
          rcases List.append_eq_nil.mp h2 with ⟨h3, _⟩
          exact List.cons_ne_nil kc k' h3
        rw [findItems_of_itemKeyLoop hne (by rw [entriesTxt_cons_cons]; exact hscan)]
        rw [List.nil_append]
        rw [pyStrip_ws_word ws (kc :: k') hws hkns (List.cons_ne_nil kc k')]
        have hih := ih (fun x hx => hwf x (List.mem_cons_of_mem _ hx))
          ('\n' :: [' ', ' ', ' ', ' ']) (by decide)
        rw [List.cons_append] at hih
        rw [hih]

/-! ### Rebuilding the class dict: `foldl upsert` on fresh keys -/

theorem upsert_append_of_none {α : Type} :
    ∀ (d : List (Str × α)) (k : Str) (v : α), alookup d k = none →
      upsert d k v = d ++ [(k, v)] := by
  intro d
  induction d with
  | nil => intro k v _; rfl
  | cons p t ih =>
    intro k v h
    obtain ⟨k1, v1⟩ := p
    simp only [alookup] at h
    by_cases e : k1 = k
    · rw [if_pos e] at h; cases h
    · rw [if_neg e] at h
      simp only [upsert, if_neg e, List.cons_append]
      rw [ih k v h]

theorem alookup_append_none {α : Type} :
    ∀ (a b : List (Str × α)) (q : Str), alookup a q = none → alookup b q = none →
      alookup (a ++ b) q = none := by
  intro a
  induction a with
  | nil => intro b q _ hb; exact hb
  | cons p t ih =>
    intro b q ha hb
    obtain ⟨k1, v1⟩ := p
    simp only [alookup] at ha
    simp only [List.cons_append, alookup]
    by_cases e : k1 = q
    · rw [if_pos e] at ha; cases ha
    · rw [if_neg e] at ha
      rw [if_neg e]
      exact ih b q ha hb

theorem foldl_upsert_nodup {α : Type} :
    ∀ (es : List (Str × α)) (d : List (Str × α)),
      (es.map Prod.fst).Nodup → (∀ e ∈ es, alookup d e.1 = none) →
      es.foldl (fun d p => upsert d p.1 p.2) d = d ++ es := by
  intro es
  induction es with
  | nil => intro d _ _; simp
  | cons e t ih =>
    intro d hnd hnone
    obtain ⟨k, v⟩ := e
    simp only [List.map_cons, List.nodup_cons] at hnd
    simp only [List.foldl_cons]
    rw [upsert_append_of_none d k v (hnone (k, v) (List.mem_cons_self _ _))]
    have hnone2 : ∀ e2 ∈ t, alookup (d ++ [(k, v)]) e2.1 = none := by
      intro e2 he2
      apply alookup_append_none
      · exact hnone e2 (List.mem_cons_of_mem _ he2)
      · have hne : ¬ (k = e2.1) := by
          intro hkk
          exact hnd.1 (by
            rw [hkk]
            exact List.mem_map.mpr ⟨e2, he2, rfl⟩)
        simp only [alookup]
        rw [if_neg hne]
    rw [ih (d ++ [(k, v)]) hnd.2 hnone2]
    simp [List.append_assoc]

/-! ### `parseClassContent` on a serialized group body -/

theorem lines_decomp :
    ∀ (t : List (Str × Str)) (e : Str × Str),
      (((e :: t).map fun e => entryLine e.1 e.2)).flatten =
        [' ', ' ', ' ', ' '] ++ (entriesTxt (e :: t) ++ ['\n']) := by
  intro t
  induction t with
  | nil =>
    intro e
    obtain ⟨k, v⟩ := e
    simp [entryLine, entriesTxt_cons_nil, colonTail, List.append_assoc]
  | cons e2 t2 ih =>
    intro e
    obtain ⟨k, v⟩ := e
    obtain ⟨k2, v2⟩ := e2
    have ih2 := ih (k2, v2)
    simp only [List.map_cons, List.flatten_cons] at ih2 ⊢
    rw [ih2, entriesTxt_cons_cons]
    simp [entryLine, colonTail, List.append_assoc]

theorem entriesTxt_getLast :
    ∀ es : List (Str × Str), es ≠ [] → (entriesTxt es).getLast? = some ',' := by
  intro es
  induction es with
  | nil => intro h; exact absurd rfl h
  | cons e t ih =>
    intro _
    obtain ⟨k, v⟩ := e
    cases t with
    | nil =>
      rw [entriesTxt_cons_nil]
      exact getLast?_append_right k _
        (getLast?_append_right [':', ' ', squote] _
          (getLast?_append_right v _
            (show ([squote, ','] : Str).getLast? = some ',' by decide)))
    | cons e2 t2 =>
      obtain ⟨k2, v2⟩ := e2
      rw [entriesTxt_cons_cons]
      exact getLast?_append_right k _
        (getLast?_append_right [':', ' ', squote] _
          (getLast?_append_right v _
            (getLast?_append_right [squote, ','] _
              (getLast?_append_right ['\n', ' ', ' ', ' ', ' '] _
                (ih (List.cons_ne_nil _ _))))))

theorem parseClassContent_entries (es : List (Str × Str))
    (hwf : ∀ e ∈ es, keyStr e.1 = true ∧ ∀ c ∈ e.2, isQuote c = false)
    (hnd : (es.map Prod.fst).Nodup) :
    parseClassContent
      ('\n' :: ((es.map fun e => entryLine e.1 e.2).flatten ++ [' ', ' '])) = es := by
  unfold parseClassContent
  cases es with
  | nil =>
    rw [pyStrip_all_space _ (by decide)]
    rfl
  | cons e t =>
    rw [lines_decomp t e]
    have hshape : ('\n' :: ((([' ', ' ', ' ', ' '] : Str) ++
        (entriesTxt (e :: t) ++ ['\n'])) ++ [' ', ' '])) =
        ('\n' :: [' ', ' ', ' ', ' ']) ++ (entriesTxt (e :: t) ++ ['\n', ' ', ' ']) := by
      simp [List.append_assoc]
    rw [hshape]
    obtain ⟨k, v⟩ := e
    have he := hwf (k, v) (List.mem_cons_self _ _)
    obtain ⟨hk0, hkall⟩ := keyStr_facts he.1
    cases k with
    | nil => exact absurd rfl hk0
    | cons kc k' =>
      have hhead : (entriesTxt ((kc :: k', v) :: t)).head? = some kc := by
        cases t with
        | nil => rfl
        | cons e2 t2 =>
          obtain ⟨k2, v2⟩ := e2
          rfl
      rw [pyStrip_sandwich ('\n' :: [' ', ' ', ' ', ' ']) (entriesTxt ((kc :: k', v) :: t))
        ['\n', ' ', ' '] kc ',' (by decide) (by decide) hhead
        (wordDot_facts (hkall kc (List.mem_cons_self kc k'))).1
        (entriesTxt_getLast _ (List.cons_ne_nil _ _)) (by decide)]
      have hfi : findItems (entriesTxt ((kc :: k', v) :: t)) = (kc :: k', v) :: t := by
        have := findItems_entries ((kc :: k', v) :: t) hwf [] (by intro c hc; cases hc)
        rwa [List.nil_append] at this
      rw [hfi]
      exact foldl_upsert_nodup ((kc :: k', v) :: t) [] hnd
        (by intro e2 _; rfl)

/-! ### The top-level scan on serialized text -/

theorem matchWordColonAt_nonword (c : Char) (t : Str) (hc : isWordChar c = false) :
    matchWordColonAt (c :: t) = none := by
  have h1 : (c :: t).takeWhile isWordChar = [] := by
    rw [List.takeWhile_cons, if_neg]
    rw [hc]
    exact Bool.false_ne_true
  simp only [matchWordColonAt, h1]
  rw [if_pos trivial]

theorem searchWordColon_skip :
    ∀ (junk s : Str), (∀ c ∈ junk, isWordChar c = false) →
      searchWordColon (junk ++ s) = searchWordColon s := by
  intro junk
  induction junk with
  | nil => intro s _; rw [List.nil_append]
  | cons j junk' ih =>
    intro s h
    rw [List.cons_append]
    simp only [searchWordColon]
    rw [matchWordColonAt_nonword j _ (h j (List.mem_cons_self j junk'))]
    exact ih s fun c hc => h c (List.mem_cons_of_mem j hc)

theorem matchWordColonAt_key (g : Str) (hg : g ≠ []) (hgw : ∀ c ∈ g, isWordChar c = true)
    (rest : Str) : matchWordColonAt (g ++ ':' :: rest) = some (g, rest) := by
  simp only [matchWordColonAt]
  rw [takeWhile_middle (by decide) g rest hgw]
  rw [if_neg hg]
  rw [dropWhile_middle (by decide) g rest hgw]
  rw [dropWhile_cons_neg ':' rest (by decide)]
  dsimp only
  rw [if_pos rfl]

theorem searchWordColon_of_match {s : Str} {kv : Str × Str} (hs : s ≠ [])
    (h : matchWordColonAt s = some kv) : searchWordColon s = some kv := by
  cases s with
  | nil => exact absurd rfl hs
  | cons c t =>
    simp only [searchWordColon]
    rw [h]

theorem findClose_free :
    ∀ a : Str, (∀ c ∈ a, c ≠ lbrace ∧ c ≠ rbrace) → ∀ rest : Str,
      findClose 1 (a ++ rbrace :: rest) = some (a, rest) := by
  intro a
  induction a with
  | nil =>
    intro _ rest
    rw [List.nil_append]
    unfold findClose
    rw [if_neg (by decide : ¬ rbrace = lbrace), if_pos rfl, if_pos rfl]
  | cons c a' ih =>
    intro h rest
    have hc := h c (List.mem_cons_self c a')
    rw [List.cons_append]
    unfold findClose
    rw [if_neg hc.1, if_neg hc.2]
    rw [ih (fun x hx => h x (List.mem_cons_of_mem c hx)) rest]
    rfl

/-! ### Character classes of the serialized body -/

theorem entryLine_chars {k v : Str} (hk : keyStr k = true)
    (hv : ∀ c ∈ v, benignChar c = true) :
    ∀ c ∈ entryLine k v, c ≠ lbrace ∧ c ≠ rbrace ∧ c ≠ '/' := by
  intro c hc
  unfold entryLine at hc
  rcases List.mem_append.mp hc with h | h
  · simp only [List.mem_cons, List.not_mem_nil, or_false] at h
    rcases h with h | h | h | h <;> (subst h; refine ⟨by decide, by decide, by decide⟩)
  rcases List.mem_append.mp h with h | h
  · have hf := wordDot_facts ((keyStr_facts hk).2 c h)
    exact ⟨hf.2.2.2.1, hf.2.2.2.2.1, hf.2.2.2.2.2.1⟩
  rcases List.mem_append.mp h with h | h
  · simp only [List.mem_cons, List.not_mem_nil, or_false] at h
    rcases h with h | h | h <;> (subst h; refine ⟨by decide, by decide, by decide⟩)
  rcases List.mem_append.mp h with h | h
  · have hf := benign_facts (hv c h)
    exact ⟨hf.1, hf.2.1, hf.2.2.1⟩
  · simp only [List.mem_cons, List.not_mem_nil, or_false] at h
    rcases h with h | h | h <;> (subst h; refine ⟨by decide, by decide, by decide⟩)

theorem lines_chars {es : List (Str × Str)}
    (h : ∀ e ∈ es, keyStr e.1 = true ∧ ∀ c ∈ e.2, benignChar c = true) :
    ∀ c ∈ (es.map fun e => entryLine e.1 e.2).flatten,
      c ≠ lbrace ∧ c ≠ rbrace ∧ c ≠ '/' := by
  intro c hc
  rw [List.mem_flatten] at hc
  obtain ⟨l, hl, hcl⟩ := hc
  rw [List.mem_map] at hl
  obtain ⟨e, he, rfl⟩ := hl
  exact entryLine_chars (h e he).1 (h e he).2 c hcl

theorem groupBlob_no_slash {g : Str} {es : List (Str × Str)} (hg : wordStr g = true)
    (hes : ∀ e ∈ es, keyStr e.1 = true ∧ ∀ c ∈ e.2, benignChar c = true) :
    ∀ c ∈ groupBlob g es, c ≠ '/' := by
  intro c hc
  unfold groupBlob at hc
  rcases List.mem_append.mp hc with h | h
  · simp only [List.mem_cons, List.not_mem_nil, or_false] at h
    rcases h with h | h <;> (subst h; decide)
  rcases List.mem_append.mp h with h | h
  · exact (word_facts ((wordStr_facts hg).2 c h)).2.2.2.2.2.1
  rcases List.mem_append.mp h with h | h
  · simp only [List.mem_cons, List.not_mem_nil, or_false] at h
    rcases h with h | h | h | h <;> (subst h; decide)
  rcases List.mem_append.mp h with h | h
  · exact (lines_chars hes c h).2.2
  · simp only [List.mem_cons, List.not_mem_nil, or_false] at h
    rcases h with h | h | h | h | h <;> (subst h; decide)

theorem docWf_group {D : List (Str × List (Str × Str))} (hwf : docWf D = true)
    {p : Str × List (Str × Str)} (hp : p ∈ D) :
    wordStr p.1 = true ∧ ∀ e ∈ p.2, keyStr e.1 = true ∧ valStr e.2 = true := by
  simp only [docWf, List.all_eq_true, Bool.and_eq_true] at hwf
  exact hwf p hp

theorem genRest_no_slash (D : List (Str × List (Str × Str))) (hwf : docWf D = true) :
    ∀ c ∈ genRest D, c ≠ '/' := by
  intro c hc
  unfold genRest at hc
  rcases List.mem_append.mp hc with h | h
  · simp only [List.mem_cons, List.not_mem_nil, or_false] at h
    rcases h with h | h | h <;> (subst h; decide)
  rcases List.mem_append.mp h with h | h
  · rw [List.mem_flatten] at h
    obtain ⟨l, hl, hcl⟩ := h
    rw [List.mem_map] at hl
    obtain ⟨p, hp, rfl⟩ := hl
    have hgrp := docWf_group hwf hp
    exact groupBlob_no_slash hgrp.1
      (fun e he => ⟨(hgrp.2 e he).1, (valStr_facts (hgrp.2 e he).2).1⟩) c hcl
  · simp only [List.mem_cons, List.not_mem_nil, or_false] at h
    rcases h with h | h <;> (subst h; decide)

/-! ### The scanning loop on the serialized body -/

theorem parseLoop_run :
    ∀ D : List (Str × List (Str × Str)),
      docWf D = true → (D.map Prod.fst).Nodup →
      (∀ g ∈ D, ((g.2).map Prod.fst).Nodup) →
      ∀ junk : Str, (∀ c ∈ junk, isWordChar c = false) →
      ∀ res : List (Str × List (Str × Str)), (∀ g ∈ D, alookup res g.1 = none) →
        parseLoop (junk ++ ((D.map fun p => groupBlob p.1 p.2).flatten ++ [rbrace])) res =
          .ok (res ++ D) := by
  intro D
  induction D with
  | nil =>
    intro _ _ _ junk hj res _
    rw [List.map_nil, List.flatten_nil, List.nil_append, parseLoop_eq,
      searchWordColon_skip junk [rbrace] hj,
      (show searchWordColon [rbrace] = none by decide), List.append_nil]
  | cons P D' ih =>
    obtain ⟨g, es⟩ := P
    intro hwf hnd hknd junk hj res hres
    have hgrp := docWf_group hwf (List.mem_cons_self _ _)
    have hg : wordStr g = true := hgrp.1
    have hes : ∀ e ∈ es, keyStr e.1 = true ∧ valStr e.2 = true := hgrp.2
    obtain ⟨hg0, hgw⟩ := wordStr_facts hg
    simp only [docWf, List.all_cons, Bool.and_eq_true] at hwf
    simp only [List.map_cons, List.nodup_cons] at hnd
    have E1 : junk ++ (((((g, es) :: D').map fun p => groupBlob p.1 p.2).flatten) ++ [rbrace]) =
        (junk ++ [' ', ' ']) ++ (g ++ (':' :: (' ' :: (lbrace :: ('\n' ::
          ((es.map fun e => entryLine e.1 e.2).flatten ++ ([' ', ' '] ++ (rbrace ::
            (',' :: ('\n' :: ((D'.map fun p => groupBlob p.1 p.2).flatten ++
              [rbrace]))))))))))) := by
      simp [groupBlob, List.append_assoc]
    rw [E1, parseLoop_eq]
    have hjunk2 : ∀ c ∈ junk ++ [' ', ' '], isWordChar c = false := by
      intro c hc
      rcases List.mem_append.mp hc with h | h
      · exact hj c h
      · simp only [List.mem_cons, List.not_mem_nil, or_false] at h
        rcases h with h | h <;> (subst h; decide)
    rw [searchWordColon_skip (junk ++ [' ', ' ']) _ hjunk2]
    have hsne : g ++ ':' :: (' ' :: (lbrace :: ('\n' ::
        ((es.map fun e => entryLine e.1 e.2).flatten ++ ([' ', ' '] ++ (rbrace ::
          (',' :: ('\n' :: ((D'.map fun p => groupBlob p.1 p.2).flatten ++
            [rbrace]))))))))) ≠ [] := by
      intro hcon
      obtain ⟨h1, h2⟩ := List.append_eq_nil.mp hcon
      cases h2
    rw [searchWordColon_of_match hsne (matchWordColonAt_key g hg0 hgw _)]
    dsimp only
    rw [List.dropWhile_cons, if_pos (by decide), List.dropWhile_cons, if_neg (by decide)]
    dsimp only
    have E2 : ('\n' :: ((es.map fun e => entryLine e.1 e.2).flatten ++ ([' ', ' '] ++
        (rbrace :: (',' :: ('\n' :: ((D'.map fun p => groupBlob p.1 p.2).flatten ++
          [rbrace]))))))) =
        ('\n' :: ((es.map fun e => entryLine e.1 e.2).flatten ++ [' ', ' '])) ++
          (rbrace :: (',' :: ('\n' :: ((D'.map fun p => groupBlob p.1 p.2).flatten ++
            [rbrace])))) := by
      simp [List.append_assoc]
    rw [E2]
    have hfree : ∀ c ∈ '\n' :: ((es.map fun e => entryLine e.1 e.2).flatten ++ [' ', ' ']),
        c ≠ lbrace ∧ c ≠ rbrace := by
      intro c hc
      rcases List.mem_cons.mp hc with h | h
      · subst h; exact ⟨by decide, by decide⟩
      rcases List.mem_append.mp h with h | h
      · have := lines_chars
          (fun e he => ⟨(hes e he).1, (valStr_facts (hes e he).2).1⟩) c h
        exact ⟨this.1, this.2.1⟩
      · simp only [List.mem_cons, List.not_mem_nil, or_false] at h
        rcases h with h | h <;> (subst h; exact ⟨by decide, by decide⟩)
    rw [findClose_free _ hfree _]
    dsimp only
    rw [parseClassContent_entries es
      (fun e he => ⟨(hes e he).1, fun c hc =>
        (benign_facts ((valStr_facts (hes e he).2).1 c hc)).2.2.2⟩)
      (hknd (g, es) (List.mem_cons_self _ _))]
    rw [upsert_append_of_none res g es (hres (g, es) (List.mem_cons_self _ _))]
    have hres2 : ∀ g2 ∈ D', alookup (res ++ [(g, es)]) g2.1 = none := by
      intro g2 hg2
      apply alookup_append_none
      · exact hres g2 (List.mem_cons_of_mem _ hg2)
      · have hne : ¬ (g = g2.1) := by
          intro hkk
          exact hnd.1 (by
            rw [hkk]
            exact List.mem_map.mpr ⟨g2, hg2, rfl⟩)
        simp only [alookup]
        rw [if_neg hne]
    have hrec := ih hwf.2 hnd.2 (fun g2 hg2 => hknd g2 (List.mem_cons_of_mem _ hg2))
      [',', '\n'] (by decide) (res ++ [(g, es)]) hres2
    simp only [List.cons_append, List.nil_append] at hrec
    rw [hrec]
    simp [List.append_assoc]

/-! ### The serializer's output shape on a flat document -/

theorem genContent_strs (es : List (Str × Str)) :
    generate_nested_content (es.map fun q => (q.1, JValue.str q.2)) 2 =
      (es.map fun e => entryLine e.1 e.2).flatten := by
  induction es with
  | nil => rfl
  | cons e t ih =>
    obtain ⟨k, v⟩ := e
    rw [List.map_cons, generate_nested_content_cons]
    dsimp only
    rw [List.map_cons, List.flatten_cons, ih]
    have hind : indentStr 2 = [' ', ' ', ' ', ' '] := by decide
    rw [hind]
    simp [entryLine, List.append_assoc]

theorem genjs_shape (D : List (Str × List (Str × Str))) :
    generate_js (toJDoc D) = exportPat ++ genRest D := by
  unfold generate_js toJDoc genRest
  rw [List.map_map]
  have hm : List.map ((fun p : Str × List (Str × JValue) =>
        "  ".data ++ p.1 ++ [':', ' ', lbrace, '\n'] ++ generate_nested_content p.2 2 ++
          "  ".data ++ [rbrace, ',', '\n']) ∘ fun p : Str × List (Str × Str) =>
        (p.1, p.2.map fun q => (q.1, JValue.str q.2))) D =
      List.map (fun p => groupBlob p.1 p.2) D := by
    apply List.map_congr_left
    intro p _
    dsimp only [Function.comp]
    rw [genContent_strs]
    simp [groupBlob, List.append_assoc]
  rw [hm]
  rw [(show "export default ".data = exportPat ++ [' '] from rfl)]
  simp [List.append_assoc]

/-! ### The round trip on well-formed flat documents -/

theorem parse_generate_eq (D : List (Str × List (Str × Str))) (hwf : docWf D = true)
    (hnd : (D.map Prod.fst).Nodup) (hknd : ∀ g ∈ D, ((g.2).map Prod.fst).Nodup) :
    parse_js_file (generate_js (toJDoc D)) = .ok D := by
  rw [genjs_shape]
  unfold parse_js_file
  rw [(show "export default".data = exportPat from rfl)]
  rw [replaceAll_strip (genRest D) (noOcc_genRest D hwf)]
  rw [stripComments_id (genRest D) (genRest_no_slash D hwf)]
  have hstrip : pyStrip (genRest D) = lbrace :: ('\n' ::
      (((D.map fun p => groupBlob p.1 p.2).flatten) ++ [rbrace, ';'])) := by
    have hsh : genRest D = [' '] ++ ((lbrace :: ('\n' ::
        (((D.map fun p => groupBlob p.1 p.2).flatten) ++ [rbrace, ';']))) ++ []) := by
      simp [genRest]
    rw [hsh]
    refine pyStrip_sandwich [' '] _ [] lbrace ';' (by decide)
      (fun c hc => absurd hc (List.not_mem_nil c)) rfl (by decide) ?_ (by decide)
    exact getLast?_append_right [lbrace, '\n'] _
      (getLast?_append_right _ [rbrace, ';'] (by decide))
  rw [hstrip]
  have hsemi : stripSemi (lbrace :: ('\n' ::
      (((D.map fun p => groupBlob p.1 p.2).flatten) ++ [rbrace, ';']))) =
      lbrace :: ('\n' :: (((D.map fun p => groupBlob p.1 p.2).flatten) ++ [rbrace])) := by
    have hconc : lbrace :: ('\n' ::
        (((D.map fun p => groupBlob p.1 p.2).flatten) ++ [rbrace, ';'])) =
        (lbrace :: ('\n' :: (((D.map fun p => groupBlob p.1 p.2).flatten) ++ [rbrace]))) ++
          [';'] := by
      simp [List.append_assoc]
    rw [hconc]
    unfold stripSemi
    rw [if_pos (getLast?_append_right _ [';'] (by decide))]
    rw [List.dropLast_concat]
  rw [hsemi]
  have hrun := parseLoop_run D hwf hnd hknd [lbrace, '\n'] (by decide) []
    (fun g _ => rfl)
  simp only [List.cons_append, List.nil_append] at hrun
  rw [hrun]

/-- C2: round trip of the serializer and the parser.  The claim as stated
(only sentinel- and depth-restrictions) fails: a single quote inside a
value breaks the textual round trip (see the counterexample below).  For
documents whose group names are non-empty word identifiers without
repetition, whose keys are non-empty word-or-dot identifiers without
repetition per group, and whose values avoid quotes, braces, slashes and
the text `export default`, parsing the serialized text yields exactly the
original document. -/
theorem claim2_roundtrip (D : List (Str × List (Str × Str))) (hwf : docWf D = true)
    (hnd : (D.map Prod.fst).Nodup) (hknd : ∀ g ∈ D, ((g.2).map Prod.fst).Nodup) :
    parse_js_file (generate_js (toJDoc D)) = .ok D :=
  parse_generate_eq D hwf hnd hknd

/-- The C2 counterexample document: one group, one key, value `a'b`. -/
def docC2cex : List (Str × List (Str × Str)) :=
  [("g".data, [("k".data, 'a' :: (squote :: ['b']))])]

/-- C2 counterexample: the value `a'b` collides with no sentinel and
needs no depth, yet the round trip truncates it at the quote: parsing the
serialized text returns value `a`, not the original document. -/
theorem claim2_counterexample :
    parse_js_file (generate_js (toJDoc docC2cex)) =
      .ok [("g".data, [("k".data, ['a'])])] ∧
    docC2cex ≠ [("g".data, [("k".data, ['a'])])] :=
  ⟨rfl, by decide⟩

/-- A well-formed two-group document exercising the round trip. -/
def docC2wit : List (Str × List (Str × Str)) :=
  [("text".data, [("hello".data, "Hi there".data), ("bye".data, "Bye".data)]),
   ("tip".data, [("ok".data, "OK".data)])]

/-- Witness for C2 at a concrete document. -/
theorem claim2_witness :
    docWf docC2wit = true ∧ (docC2wit.map Prod.fst).Nodup ∧
    (∀ g ∈ docC2wit, ((g.2).map Prod.fst).Nodup) ∧
    parse_js_file (generate_js (toJDoc docC2wit)) = .ok docC2wit :=
  ⟨by decide, by decide, by decide,
   claim2_roundtrip docC2wit (by decide) (by decide) (by decide)⟩

/-- C6: the parse stage fails exactly at the two structural conditions.
(i) On the restricted grammar (the serializer's own output on well-formed
non-empty documents) parsing succeeds, including the downstream emptiness
check; (ii) an unmatched opening brace after a group name raises the
error naming that group; (iii) whenever the parse yields zero top-level
groups, the base-file check raises the empty-data error. -/
theorem claim6_parse_errors :
    (∀ D : List (Str × List (Str × Str)), docWf D = true →
      (D.map Prod.fst).Nodup → (∀ g ∈ D, ((g.2).map Prod.fst).Nodup) → D ≠ [] →
      parseChecked (generate_js (toJDoc D)) = .ok D) ∧
    (∀ g : Str, wordStr g = true →
      parse_js_file ("export default ".data ++ (g ++ [':', lbrace])) =
        .error ("Cannot find closing bracket for class ".data ++ g)) ∧
    (∀ s : Str, parse_js_file s = .ok [] →
      parseChecked s = .error "Base file parsing resulted in empty data".data) := by
  refine ⟨?_, ?_, ?_⟩
  · intro D hwf hnd hknd hD
    unfold parseChecked
    rw [parse_generate_eq D hwf hnd hknd]
    dsimp only
    rw [if_neg hD]
  · intro g hg
    obtain ⟨hg0, hgw⟩ := wordStr_facts hg
    rw [(show "export default ".data = exportPat ++ [' '] from rfl), List.append_assoc]
    unfold parse_js_file
    rw [(show "export default".data = exportPat from rfl)]
    have hno : noOcc exportPat ([' '] ++ (g ++ [':', lbrace])) = true := by
      apply noOcc_append
      · exact noOcc_short _ _ (by decide)
      · apply noOcc_append
        · exact noOcc_of_missing exportPat ' ' (by decide) g
            (fun hm => absurd ((word_facts (hgw ' ' hm)).1) (by decide))
        · exact noOcc_short _ _ (by decide)
        · exact crossOk_of_head _ _ _ ':' rfl (by decide)
      · exact crossOk_of_safe _ _ _ (suffixSafe_of_B _ _ (by decide))
    rw [replaceAll_strip _ hno]
    rw [stripComments_id _ ?slash]
    case slash =>
      intro c hc
      rcases List.mem_append.mp hc with h | h
      · simp only [List.mem_cons, List.not_mem_nil, or_false] at h
        subst h; decide
      rcases List.mem_append.mp h with h | h
      · exact (word_facts (hgw c h)).2.2.2.2.2.1
      · simp only [List.mem_cons, List.not_mem_nil, or_false] at h
        rcases h with h | h <;> (subst h; decide)
    have hstrip : pyStrip ([' '] ++ (g ++ [':', lbrace])) = g ++ [':', lbrace] := by
      cases g with
      | nil => exact absurd rfl hg0
      | cons gc g' =>
        have hps := pyStrip_sandwich [' '] ((gc :: g') ++ [':', lbrace]) [] gc lbrace
          (by decide) (fun c hc => absurd hc (List.not_mem_nil c)) rfl
          ((word_facts (hgw gc (List.mem_cons_self gc g'))).1)
          (getLast?_append_right (gc :: g') [':', lbrace] (by decide)) (by decide)
        rwa [List.append_nil] at hps
    rw [hstrip]
    have hsemi : stripSemi (g ++ [':', lbrace]) = g ++ [':', lbrace] := by
      have hgl : (g ++ [':', lbrace]).getLast? = some lbrace :=
        getLast?_append_right g [':', lbrace] (by decide)
      unfold stripSemi
      rw [if_neg (by rw [hgl]; decide)]
    rw [hsemi, parseLoop_eq]
    have hne : g ++ [':', lbrace] ≠ [] := by
      intro hcon
      obtain ⟨_, h2⟩ := List.append_eq_nil.mp hcon
      cases h2
    rw [searchWordColon_of_match hne (matchWordColonAt_key g hg0 hgw [lbrace])]
    dsimp only
    rw [List.dropWhile_cons, if_neg (by decide)]
    dsimp only
    rw [(show findClose 1 ([] : Str) = none from rfl)]
  · intro s h
    unfold parseChecked
    rw [h]
    dsimp only
    rw [if_pos rfl]

/-- A well-formed one-group document for the C6 witness. -/
def docC6wit : List (Str × List (Str × Str)) :=
  [("menu".data, [("open".data, "Open".data), ("close".data, "Close".data)])]

/-- Witness for C6 at concrete inputs: a well-formed document, the
malformed text `export default g:{`, and the empty input. -/
theorem claim6_witness :
    parseChecked (generate_js (toJDoc docC6wit)) = .ok docC6wit ∧
    parse_js_file ("export default ".data ++ ("g".data ++ [':', lbrace])) =
      .error ("Cannot find closing bracket for class ".data ++ "g".data) ∧
    parseChecked [] = .error "Base file parsing resulted in empty data".data :=
  ⟨claim6_parse_errors.1 docC6wit (by decide) (by decide) (by decide) (by decide),
   claim6_parse_errors.2.1 "g".data (by decide),
   claim6_parse_errors.2.2 [] rfl⟩

end MLT
